import Mathlib

/-!
# Games101 homework: material sampling, Bezier curves and the rope

A shallow embedding of `src/Assignment7/Material.hpp` (the material: local frame,
sampling, density, reflectance, refraction and Fresnel terms), of `recursive_bezier` and
`naive_bezier` in `src/Assignment4/main.cpp`, and of the constructor and the two
integrators of `Rope` in `src/Assignment8/src/rope.cpp`.

Conventions of the embedding.

* `float` and `double` values are idealised as real numbers: every arithmetic operation is
  exact, `std::sqrt`, `std::cos`, `std::sin`, `std::acos` are the real functions
  (`Real.sqrt` is `0` on negative arguments, division by `0` is `0`).
* `get_random_float()` is an external random source; the two draws consumed by
  `sample` are passed in as arguments, in the order the code draws them.
* `Vector.hpp` and `global.hpp` are not part of the sources at hand.  The vector
  helpers, `clamp` and `M_PI` are modelled below; the constant `EPSILON` is a
  parameter of `pdf`, `eval` and `D_GGX`.
* `cv::Point2f`, `CGL::Vector2D`, `Mass` and `Spring` are declared outside the sources at
  hand and are modelled below.  The vectors of pointers `masses` and `springs` of a rope
  are lists, and the pointers `m1`, `m2` of a spring are indices into `masses`.
* An out-of-bounds read or write (`points[0]` on an empty vector, `masses[i]` for an index
  that is not one of the rope) makes the result `none`.
-/

namespace Games101

/-! ## Vectors (`Vector.hpp`) -/

/-- Modelled from the spec: `Vector3f` of `Vector.hpp`, a triple of floats. -/
@[ext] structure Vector3f where
  x : ℝ
  y : ℝ
  z : ℝ

namespace Vector3f

/-- Modelled from the spec: `Vector3f(float xx)`, the vector with three equal components. -/
def splat (v : ℝ) : Vector3f := ⟨v, v, v⟩

/-- Modelled from the spec: `operator+` of `Vector.hpp`. -/
instance : Add Vector3f := ⟨fun a b => ⟨a.x + b.x, a.y + b.y, a.z + b.z⟩⟩

/-- Modelled from the spec: binary `operator-` of `Vector.hpp`. -/
instance : Sub Vector3f := ⟨fun a b => ⟨a.x - b.x, a.y - b.y, a.z - b.z⟩⟩

/-- Modelled from the spec: unary `operator-` of `Vector.hpp`. -/
instance : Neg Vector3f := ⟨fun a => ⟨-a.x, -a.y, -a.z⟩⟩

/-- Modelled from the spec: `operator*(const float&, const Vector3f&)` of `Vector.hpp`. -/
instance : HMul ℝ Vector3f Vector3f := ⟨fun r a => ⟨a.x * r, a.y * r, a.z * r⟩⟩

/-- Modelled from the spec: `Vector3f::operator*(const float&)` of `Vector.hpp`. -/
instance : HMul Vector3f ℝ Vector3f := ⟨fun a r => ⟨a.x * r, a.y * r, a.z * r⟩⟩

/-- Modelled from the spec: `Vector3f::operator/(const float&)` of `Vector.hpp`. -/
noncomputable instance : HDiv Vector3f ℝ Vector3f := ⟨fun a r => ⟨a.x / r, a.y / r, a.z / r⟩⟩

/-- Modelled from the spec: `Vector3f::norm()`, the Euclidean length. -/
noncomputable def norm (v : Vector3f) : ℝ := Real.sqrt (v.x * v.x + v.y * v.y + v.z * v.z)

end Vector3f

open Vector3f

/-- Modelled from the spec: `dotProduct` of `Vector.hpp`. -/
def dotProduct (a b : Vector3f) : ℝ := a.x * b.x + a.y * b.y + a.z * b.z

/-- Modelled from the spec: `crossProduct` of `Vector.hpp`. -/
def crossProduct (a b : Vector3f) : Vector3f :=
  ⟨a.y * b.z - a.z * b.y, a.z * b.x - a.x * b.z, a.x * b.y - a.y * b.x⟩

/-- Modelled from the spec: `normalize` of `Vector.hpp`: a vector of positive squared
length is scaled by the inverse of its length, any other vector is returned as is. -/
noncomputable def normalize (v : Vector3f) : Vector3f :=
  let mag2 := v.x * v.x + v.y * v.y + v.z * v.z
  if mag2 > 0 then
    let invMag := 1 / Real.sqrt mag2
    ⟨v.x * invMag, v.y * invMag, v.z * invMag⟩
  else v

/-! ## Globals (`global.hpp`) -/

/-- Modelled from the spec: `clamp(lo, hi, v)` of `global.hpp`, `max(lo, min(hi, v))`. -/
def clamp (lo hi v : ℝ) : ℝ := max lo (min hi v)

/-- Modelled from the spec: the constant `M_PI`, idealised as the real number pi. -/
noncomputable def M_PI : ℝ := Real.pi

/-! ## The material (`Material.hpp`) -/

/-- The `MaterialType` enumeration. -/
inductive MaterialType where
  | DIFFUSE
  | MICROFACET
  deriving DecidableEq

/-- The data members of `Material`. -/
structure Material where
  m_type : MaterialType
  m_emission : Vector3f
  ior : ℝ
  roughness : ℝ
  Kd : Vector3f
  Ks : Vector3f
  specularExponent : ℝ

/-- `Material::reflect`: `I - 2 * dotProduct(I, N) * N`. -/
def reflect (I N : Vector3f) : Vector3f := I - ((2 : ℝ) * dotProduct I N) * N

/-- The local `C` of `Material::toWorld`, built in the branch chosen by comparing
`fabs(N.x)` with `fabs(N.y)`. -/
noncomputable def toWorldC (N : Vector3f) : Vector3f :=
  if |N.x| > |N.y| then
    let invLen := 1 / Real.sqrt (N.x * N.x + N.z * N.z)
    ⟨N.z * invLen, 0, -N.x * invLen⟩
  else
    let invLen := 1 / Real.sqrt (N.y * N.y + N.z * N.z)
    ⟨0, N.z * invLen, -N.y * invLen⟩

/-- The local `B` of `Material::toWorld`: `crossProduct(C, N)`. -/
noncomputable def toWorldB (N : Vector3f) : Vector3f := crossProduct (toWorldC N) N

/-- `Material::toWorld`: `a.x * B + a.y * C + a.z * N`. -/
noncomputable def toWorld (a N : Vector3f) : Vector3f :=
  a.x * toWorldB N + a.y * toWorldC N + a.z * N

/-- The argument of the square root that `Material::toWorld` inverts, in the branch
it takes for the normal `N`. -/
noncomputable def toWorldRadicand (N : Vector3f) : ℝ :=
  if |N.x| > |N.y| then N.x * N.x + N.z * N.z else N.y * N.y + N.z * N.z

/-- `Material::refract`.  The tuple holds `cosi`, `etai`, `etat` and `n` after the
`if (cosi < 0) ... else ...` statement; the literal `0` returned on total internal
reflection converts to the zero vector. -/
noncomputable def refract (I N : Vector3f) (ior : ℝ) : Vector3f :=
  let cosi0 := clamp (-1) 1 (dotProduct I N)
  let st : ℝ × ℝ × ℝ × Vector3f :=
    if cosi0 < 0 then (-cosi0, 1, ior, N) else (cosi0, ior, 1, -N)
  let cosi := st.1
  let etai := st.2.1
  let etat := st.2.2.1
  let n := st.2.2.2
  let eta := etai / etat
  let k := 1 - eta * eta * (1 - cosi * cosi)
  if k < 0 then splat 0 else eta * I + (eta * cosi - Real.sqrt k) * n

/-- `Material::fresnel`; the value written to the output parameter `kr` is returned.
The pair holds `etai` and `etat` after the conditional swap. -/
noncomputable def fresnel (I N : Vector3f) (ior : ℝ) : ℝ :=
  let cosi0 := clamp (-1) 1 (dotProduct I N)
  let e : ℝ × ℝ := if cosi0 > 0 then (ior, 1) else (1, ior)
  let etai := e.1
  let etat := e.2
  let sint := etai / etat * Real.sqrt (max 0 (1 - cosi0 * cosi0))
  if sint ≥ 1 then 1
  else
    let cost := Real.sqrt (max 0 (1 - sint * sint))
    let cosi := |cosi0|
    let Rs := ((etat * cosi) - (etai * cost)) / ((etat * cosi) + (etai * cost))
    let Rp := ((etai * cosi) - (etat * cost)) / ((etai * cosi) + (etat * cost))
    (Rs * Rs + Rp * Rp) / 2

/-- `Material::D_GGX`, with the global constant `EPSILON` as a parameter. -/
noncomputable def D_GGX (EPSILON alpha NoH : ℝ) : ℝ :=
  let alphaSq := alpha * alpha
  let denom0 := (alphaSq - 1) * NoH * NoH + 1
  let denom := max EPSILON denom0
  alphaSq / (M_PI * denom * denom)

/-- `Material::sample`.  `u1` and `u2` are the first and the second value returned by
`get_random_float()` in the call. -/
noncomputable def Material.sample (m : Material) (u1 u2 : ℝ) (wi N : Vector3f) : Vector3f :=
  match m.m_type with
  | .DIFFUSE =>
    let x_1 := u1
    let x_2 := u2
    let z := |1 - 2 * x_1|
    let r := Real.sqrt (1 - z * z)
    let phi := 2 * M_PI * x_2
    let localRay : Vector3f := ⟨r * Real.cos phi, r * Real.sin phi, z⟩
    toWorld localRay N
  | .MICROFACET =>
    let alpha := m.roughness * m.roughness
    let alphaSq := alpha * alpha
    let e_1 := u1
    let e_2 := u2
    let phi := 2 * M_PI * e_1
    let theta := Real.arccos (Real.sqrt ((1 - e_2) / (e_2 * (alphaSq - 1) + 1)))
    let localRay : Vector3f :=
      ⟨Real.sin theta * Real.cos phi, Real.sin theta * Real.sin phi, Real.cos theta⟩
    let h := toWorld localRay N
    reflect (-wi) h

/-- `Material::pdf`, with the global constant `EPSILON` as a parameter. -/
noncomputable def Material.pdf (EPSILON : ℝ) (m : Material) (wi wo N : Vector3f) : ℝ :=
  if dotProduct wo N < EPSILON ∨ dotProduct wi N < EPSILON then 0
  else
    let h := normalize (wo + wi)
    match m.m_type with
    | .DIFFUSE => 0.5 / M_PI
    | .MICROFACET =>
      let alpha := m.roughness * m.roughness
      let NoH := dotProduct N h
      let D := D_GGX EPSILON alpha NoH
      D * NoH / (4 * dotProduct wo h)

/-- `Material::eval`, with the global constant `EPSILON` as a parameter.
`std::pow(1.0f - LoH, 5.0f)` is the fifth power. -/
noncomputable def Material.eval (EPSILON : ℝ) (m : Material) (wi wo N : Vector3f) : Vector3f :=
  let NoV := dotProduct N wo
  let NoL := dotProduct N wi
  if NoV < EPSILON ∨ NoL < EPSILON then splat 0
  else
    match m.m_type with
    | .DIFFUSE =>
      let diffuse := m.Kd / M_PI
      diffuse
    | .MICROFACET =>
      let alpha := m.roughness * m.roughness
      let alphaSq := alpha * alpha
      let h := normalize (wi + wo)
      let LoH := clamp 0 1 (dotProduct wi h)
      let NoH := clamp 0 1 (dotProduct N h)
      let p5 : ℝ := (1 - LoH) ^ 5
      let F : Vector3f := m.Ks + (splat 1 - m.Ks) * p5
      let lambdaV := NoL * Real.sqrt (NoV * NoV * (1 - alphaSq) + alphaSq)
      let lambdaL := NoV * Real.sqrt (NoL * NoL * (1 - alphaSq) + alphaSq)
      let V : ℝ := 0.5 / (lambdaV + lambdaL)
      let D : ℝ := D_GGX EPSILON alpha NoH
      let specular : Vector3f := (D * V) * F
      specular

/-! ## Bezier curves (`Assignment4/main.cpp`) -/

/-- Modelled from the spec: `cv::Point2f` of OpenCV, a pair of floats. -/
@[ext] structure Point2f where
  x : ℝ
  y : ℝ

/-- Modelled from the spec: `operator+` of `cv::Point2f`. -/
instance : Add Point2f := ⟨fun a b => ⟨a.x + b.x, a.y + b.y⟩⟩

/-- Modelled from the spec: the product of a scalar and a `cv::Point2f`. -/
instance : HMul ℝ Point2f Point2f := ⟨fun r a => ⟨a.x * r, a.y * r⟩⟩

/-- The value `point` computed in the body of the `for` loop of `naive_bezier` at the
parameter `t`, from the first four entries of `points` (`std::pow` with exponents `2`
and `3` is the power).  With fewer than four entries the reads are out of bounds. -/
def naive_bezier_point (points : List Point2f) (t : ℝ) : Option Point2f :=
  match points with
  | p_0 :: p_1 :: p_2 :: p_3 :: _ =>
    some (((1 - t) ^ 3 : ℝ) * p_0 + (3 * t * (1 - t) ^ 2 : ℝ) * p_1 +
      (3 * t ^ 2 * (1 - t) : ℝ) * p_2 + (t ^ 3 : ℝ) * p_3)
  | _ => none

/-- The inner `for` loop of `recursive_bezier`: `temp` receives, for `i` from `0` to
`points.size() - 2`, the interpolation of `points[i]` and `points[i + 1]`. -/
def bezierPass (t : ℝ) (points : List Point2f) : List Point2f :=
  List.zipWith (fun p q => ⟨(1 - t) * p.x + t * q.x, (1 - t) * p.y + t * q.y⟩)
    points points.tail

/-- The `while (points.size() > 1)` loop of `recursive_bezier`; the value is `points`
when the loop exits.  The recursion is well founded: every pass shortens the list. -/
def recursive_bezier_loop (t : ℝ) (points : List Point2f) : List Point2f :=
  if points.length > 1 then recursive_bezier_loop t (bezierPass t points) else points
termination_by points.length
decreasing_by
  simp only [bezierPass, List.length_zipWith, List.length_tail]
  omega

/-- `recursive_bezier`: the loop, then `points[0]` (out of bounds, hence `none`, when the
list of control points is empty). -/
def recursive_bezier (control_points : List Point2f) (t : ℝ) : Option Point2f :=
  (recursive_bezier_loop t control_points).head?

/-- The Bernstein form of one coordinate, following the words of the claim: the sum over
`i` of `C(n,i) * (1-t)^(n-i) * t^i * c_i` for the coordinates `c_0 .. c_n`. -/
def bernsteinSum (t : ℝ) (cs : List ℝ) : ℝ :=
  ∑ i in Finset.range cs.length,
    (Nat.choose (cs.length - 1) i : ℝ) * (1 - t) ^ (cs.length - 1 - i) * t ^ i * cs.getD i 0

/-- The Bernstein form of the Bezier curve with control points `p_0 .. p_n`, following
the words of the claim, coordinate by coordinate. -/
def bernstein_bezier (points : List Point2f) (t : ℝ) : Point2f :=
  ⟨bernsteinSum t (points.map (fun p => p.x)), bernsteinSum t (points.map (fun p => p.y))⟩

/-! ## The rope (`Assignment8/src/rope.cpp`) -/

/-- Modelled from the spec: `CGL::Vector2D` of `CGL/vector2D.h`, a pair of doubles. -/
@[ext] structure Vector2D where
  x : ℝ
  y : ℝ

namespace Vector2D

/-- Modelled from the spec: `operator+` of `CGL::Vector2D`. -/
instance : Add Vector2D := ⟨fun a b => ⟨a.x + b.x, a.y + b.y⟩⟩

/-- Modelled from the spec: binary `operator-` of `CGL::Vector2D`. -/
instance : Sub Vector2D := ⟨fun a b => ⟨a.x - b.x, a.y - b.y⟩⟩

/-- Modelled from the spec: unary `operator-` of `CGL::Vector2D`. -/
instance : Neg Vector2D := ⟨fun a => ⟨-a.x, -a.y⟩⟩

/-- Modelled from the spec: the product of a scalar and a `CGL::Vector2D`. -/
instance : HMul ℝ Vector2D Vector2D := ⟨fun c v => ⟨c * v.x, c * v.y⟩⟩

/-- Modelled from the spec: the product of a `CGL::Vector2D` and a scalar. -/
instance : HMul Vector2D ℝ Vector2D := ⟨fun v c => ⟨v.x * c, v.y * c⟩⟩

/-- Modelled from the spec: the quotient of a `CGL::Vector2D` by a scalar. -/
noncomputable instance : HDiv Vector2D ℝ Vector2D := ⟨fun v c => ⟨v.x / c, v.y / c⟩⟩

/-- Modelled from the spec: `Vector2D::norm()`, the Euclidean length. -/
noncomputable def norm (v : Vector2D) : ℝ := Real.sqrt (v.x * v.x + v.y * v.y)

end Vector2D

/-- Modelled from the spec: the members of `Mass` (`mass.h`). -/
structure Mass where
  mass : ℝ
  pinned : Bool
  start_position : Vector2D
  position : Vector2D
  last_position : Vector2D
  velocity : Vector2D
  forces : Vector2D

/-- Modelled from the spec: the constructor `Mass(position, mass, pinned)` of `mass.h`: the
three positions are `position`, the velocity and the forces are zero. -/
def Mass.new (position : Vector2D) (mass : ℝ) (pinned : Bool) : Mass :=
  ⟨mass, pinned, position, position, position, ⟨0, 0⟩, ⟨0, 0⟩⟩

/-- Modelled from the spec: the members of `Spring` (`spring.h`).  The pointers `m1`, `m2`
to masses of the rope are indices into the list `masses` of the rope. -/
structure Spring where
  k : ℝ
  rest_length : ℝ
  m1 : ℕ
  m2 : ℕ

/-- Modelled from the spec: the constructor `Spring(a, b, k)` of `spring.h`, with the rest
length `(a->position - b->position).norm()`; `a` and `b` are `masses[a]` and `masses[b]`. -/
noncomputable def Spring.new (masses : List Mass) (a b : ℕ) (k : ℝ) : Spring :=
  match masses[a]?, masses[b]? with
  | some ma, some mb => ⟨k, (ma.position - mb.position).norm, a, b⟩
  | _, _ => ⟨k, 0, a, b⟩

/-- The members `masses` and `springs` of `Rope`. -/
structure Rope where
  masses : List Mass
  springs : List Spring

/-- The state `(masses, springs)` of the constructor `Rope::Rope` after the first
`push_back` and `j` passes of its `for` loop (`i = 1 .. j`). -/
noncomputable def Rope.build (start length : Vector2D) (node_mass k : ℝ) :
    ℕ → List Mass × List Spring
  | 0 => ([Mass.new start node_mass false], [])
  | j + 1 =>
    let st := Rope.build start length node_mass k j
    let i := j + 1
    let masses := st.1 ++ [Mass.new (start + ((i : ℕ) : ℝ) * length) node_mass false]
    let springs := st.2 ++ [Spring.new masses (i - 1) i k]
    (masses, springs)

/-- The statement `masses[i]->pinned = true`; `none` when the index is out of bounds. -/
def setPinned (masses : List Mass) (i : ℤ) : Option (List Mass) :=
  if 0 ≤ i then
    match masses[i.toNat]? with
    | some m => some (masses.set i.toNat { m with pinned := true })
    | none => none
  else none

/-- The loop `for (auto& i : pinned_nodes) masses[i]->pinned = true;`. -/
def pinNodes (masses : List Mass) : List ℤ → Option (List Mass)
  | [] => some masses
  | i :: rest =>
    match setPinned masses i with
    | some masses1 => pinNodes masses1 rest
    | none => none

/-- The constructor `Rope::Rope`; `none` when an entry of `pinned_nodes` is out of bounds.
The loop `for (int i = 1; i < num_nodes; ++i)` makes `num_nodes - 1` passes (none when
`num_nodes <= 1`). -/
noncomputable def Rope.new (start end_ : Vector2D) (num_nodes : ℤ) (node_mass k : ℝ)
    (pinned_nodes : List ℤ) : Option Rope :=
  let length := (end_ - start) / (((num_nodes - 1 : ℤ)) : ℝ)
  let st := Rope.build start length node_mass k (num_nodes - 1).toNat
  match pinNodes st.1 pinned_nodes with
  | some masses => some ⟨masses, st.2⟩
  | none => none

/-- The statement `m->forces += f` for the mass `masses[i]`. -/
def addForce (masses : List Mass) (i : ℕ) (f : Vector2D) : List Mass :=
  match masses[i]? with
  | some m => masses.set i { m with forces := m.forces + f }
  | none => masses

/-- The body of the loop over the springs, the same in `simulateEuler` and
`simulateVerlet`: Hooke's law, added to `m1` and subtracted from `m2`.  A spring of a rope
refers to masses of the rope; for any other index the masses are left as they are. -/
noncomputable def applySpring (masses : List Mass) (s : Spring) : List Mass :=
  match masses[s.m1]?, masses[s.m2]? with
  | some a, some b =>
    let force_dir := b.position - a.position
    let force_norm := force_dir.norm
    let force : Vector2D := s.k * (force_dir / force_norm) * (force_norm - s.rest_length)
    addForce (addForce masses s.m1 force) s.m2 (-force)
  | _, _ => masses

/-- The body of the loop over the masses in `Rope::simulateEuler`. -/
noncomputable def eulerStep (delta_t : ℝ) (gravity : Vector2D) (m : Mass) : Mass :=
  let m1 : Mass :=
    if !m.pinned then
      let forces1 := m.forces + gravity * m.mass
      let damping : ℝ := 0.01
      let forces2 := forces1 + (-damping) * m.velocity
      let acc := forces2 / m.mass
      let velocity := m.velocity + acc * delta_t
      let position := m.position + velocity * delta_t
      { m with forces := forces2, velocity := velocity, position := position }
    else m
  { m1 with forces := ⟨0, 0⟩ }

/-- `Rope::simulateEuler`: the loop over the springs, then the loop over the masses. -/
noncomputable def Rope.simulateEuler (r : Rope) (delta_t : ℝ) (gravity : Vector2D) : Rope :=
  { r with masses := (r.springs.foldl applySpring r.masses).map (eulerStep delta_t gravity) }

/-- The body of the loop over the masses in `Rope::simulateVerlet`. -/
noncomputable def verletStep (delta_t : ℝ) (gravity : Vector2D) (m : Mass) : Mass :=
  let m1 : Mass :=
    if !m.pinned then
      let forces1 := m.forces + gravity * m.mass
      let acc := forces1 / m.mass
      let temp_position := m.position
      let damping : ℝ := 0.00005
      let position :=
        m.position + ((1 - damping) * (m.position - m.last_position) + acc * delta_t * delta_t)
      { m with forces := forces1, position := position, last_position := temp_position }
    else m
  { m1 with forces := ⟨0, 0⟩ }

/-- `Rope::simulateVerlet`: the loop over the springs, then the loop over the masses. -/
noncomputable def Rope.simulateVerlet (r : Rope) (delta_t : ℝ) (gravity : Vector2D) : Rope :=
  { r with masses := (r.springs.foldl applySpring r.masses).map (verletStep delta_t gravity) }

/-! ## Component lemmas for the vector operations -/

@[simp] theorem add_x (a b : Vector3f) : (a + b).x = a.x + b.x := rfl
@[simp] theorem add_y (a b : Vector3f) : (a + b).y = a.y + b.y := rfl
@[simp] theorem add_z (a b : Vector3f) : (a + b).z = a.z + b.z := rfl
@[simp] theorem sub_x (a b : Vector3f) : (a - b).x = a.x - b.x := rfl
@[simp] theorem sub_y (a b : Vector3f) : (a - b).y = a.y - b.y := rfl
@[simp] theorem sub_z (a b : Vector3f) : (a - b).z = a.z - b.z := rfl
@[simp] theorem neg_x (a : Vector3f) : (-a).x = -a.x := rfl
@[simp] theorem neg_y (a : Vector3f) : (-a).y = -a.y := rfl
@[simp] theorem neg_z (a : Vector3f) : (-a).z = -a.z := rfl
@[simp] theorem smul_x (r : ℝ) (a : Vector3f) : (r * a).x = a.x * r := rfl
@[simp] theorem smul_y (r : ℝ) (a : Vector3f) : (r * a).y = a.y * r := rfl
@[simp] theorem smul_z (r : ℝ) (a : Vector3f) : (r * a).z = a.z * r := rfl
@[simp] theorem muls_x (a : Vector3f) (r : ℝ) : (a * r).x = a.x * r := rfl
@[simp] theorem muls_y (a : Vector3f) (r : ℝ) : (a * r).y = a.y * r := rfl
@[simp] theorem muls_z (a : Vector3f) (r : ℝ) : (a * r).z = a.z * r := rfl
@[simp] theorem divs_x (a : Vector3f) (r : ℝ) : (a / r).x = a.x / r := rfl
@[simp] theorem divs_y (a : Vector3f) (r : ℝ) : (a / r).y = a.y / r := rfl
@[simp] theorem divs_z (a : Vector3f) (r : ℝ) : (a / r).z = a.z / r := rfl

theorem norm_eq_one_iff (v : Vector3f) : v.norm = 1 ↔ dotProduct v v = 1 := by
  unfold Vector3f.norm dotProduct
  exact Real.sqrt_eq_one

theorem dotProduct_comm (a b : Vector3f) : dotProduct a b = dotProduct b a := by
  unfold dotProduct; ring

/-! ## The local frame of `toWorld` -/

/-- For a unit normal the radicand of the branch taken is strictly positive. -/
theorem toWorldRadicand_pos (N : Vector3f) (hN : dotProduct N N = 1) :
    0 < toWorldRadicand N := by
  unfold dotProduct at hN
  unfold toWorldRadicand
  split_ifs with h
  · have hx : N.x ≠ 0 := by
      intro h0
      rw [h0, abs_zero] at h
      exact absurd h (not_lt.mpr (abs_nonneg _))
    have : 0 < N.x * N.x := mul_self_pos.mpr hx
    nlinarith [mul_self_nonneg N.z]
  · by_cases hy : N.y = 0
    · have hx : N.x = 0 := by
        rw [hy, abs_zero, not_lt] at h
        exact abs_eq_zero.mp (le_antisymm h (abs_nonneg _))
      rw [hx, hy] at hN
      rw [hy]
      nlinarith
    · have : 0 < N.y * N.y := mul_self_pos.mpr hy
      nlinarith [mul_self_nonneg N.z]

/-- The vector `C` in terms of the radicand: `C` is orthogonal to `N` and, for a unit
normal, has unit length. -/
theorem toWorldC_props (N : Vector3f) (hN : dotProduct N N = 1) :
    dotProduct (toWorldC N) N = 0 ∧ dotProduct (toWorldC N) (toWorldC N) = 1 := by
  have hpos := toWorldRadicand_pos N hN
  unfold toWorldRadicand at hpos
  unfold toWorldC
  split_ifs with h
  · rw [if_pos h] at hpos
    have hs : Real.sqrt (N.x * N.x + N.z * N.z) ≠ 0 := (Real.sqrt_pos.mpr hpos).ne.symm
    have hsq := Real.mul_self_sqrt hpos.le
    refine ⟨?_, ?_⟩
    · simp only [dotProduct]; ring
    · simp only [dotProduct]
      field_simp
      nlinarith
  · rw [if_neg h] at hpos
    have hs : Real.sqrt (N.y * N.y + N.z * N.z) ≠ 0 := (Real.sqrt_pos.mpr hpos).ne.symm
    have hsq := Real.mul_self_sqrt hpos.le
    refine ⟨?_, ?_⟩
    · simp only [dotProduct]; ring
    · simp only [dotProduct]
      field_simp
      nlinarith

/-- A vector product of two orthogonal unit vectors completes them to a right-handed
orthonormal frame. -/
theorem crossProduct_frame (C N : Vector3f) (hCN : dotProduct C N = 0)
    (hC : dotProduct C C = 1) (hN : dotProduct N N = 1) :
    dotProduct (crossProduct C N) (crossProduct C N) = 1 ∧
    dotProduct (crossProduct C N) C = 0 ∧
    dotProduct (crossProduct C N) N = 0 ∧
    crossProduct (crossProduct C N) C = N := by
  unfold dotProduct at hCN hC hN
  refine ⟨?_, ?_, ?_, ?_⟩
  · simp only [dotProduct, crossProduct]
    linear_combination (N.x * N.x + N.y * N.y + N.z * N.z) * hC + hN
      - (C.x * N.x + C.y * N.y + C.z * N.z) * hCN
  · simp only [dotProduct, crossProduct]; ring
  · simp only [dotProduct, crossProduct]; ring
  · apply Vector3f.ext
    · simp only [crossProduct]
      linear_combination N.x * hC - C.x * hCN
    · simp only [crossProduct]
      linear_combination N.y * hC - C.y * hCN
    · simp only [crossProduct]
      linear_combination N.z * hC - C.z * hCN

/-- Orthonormality of the frame `B`, `C`, `N` of `toWorld`, in terms of dot products. -/
theorem toWorld_frame_dot (N : Vector3f) (hN : dotProduct N N = 1) :
    dotProduct (toWorldB N) (toWorldB N) = 1 ∧ dotProduct (toWorldC N) (toWorldC N) = 1 ∧
    dotProduct (toWorldB N) (toWorldC N) = 0 ∧ dotProduct (toWorldB N) N = 0 ∧
    dotProduct (toWorldC N) N = 0 ∧ crossProduct (toWorldB N) (toWorldC N) = N := by
  obtain ⟨hCN, hC⟩ := toWorldC_props N hN
  obtain ⟨h1, h2, h3, h4⟩ := crossProduct_frame (toWorldC N) N hCN hC hN
  exact ⟨h1, hC, h2, h3, hCN, h4⟩

/-- The world vector `toWorld a N` has the length of `a`, and its component along `N`
is the local `z`. -/
theorem toWorld_dot (a N : Vector3f) (hN : dotProduct N N = 1) :
    dotProduct (toWorld a N) (toWorld a N) = dotProduct a a ∧
    dotProduct (toWorld a N) N = a.z := by
  obtain ⟨hB, hC, hBC, hBN, hCN, -⟩ := toWorld_frame_dot N hN
  unfold toWorld
  generalize toWorldB N = B at *
  generalize toWorldC N = C at *
  unfold dotProduct at *
  simp only [add_x, add_y, add_z, smul_x, smul_y, smul_z]
  refine ⟨?_, ?_⟩
  · linear_combination (a.x * a.x) * hB + (a.y * a.y) * hC + (a.z * a.z) * hN
      + (2 * a.x * a.y) * hBC + (2 * a.x * a.z) * hBN + (2 * a.y * a.z) * hCN
  · linear_combination a.x * hBN + a.y * hCN + a.z * hN

/-! ## C1: the local frame -/

/-- C1. For every unit normal `N`, the square root inverted by `toWorld` is strictly
positive in the branch taken, the vectors `B` and `C` it builds have unit norm, `B`, `C`
and `N` are pairwise orthogonal, the frame is right-handed (`crossProduct B C = N`), and
`toWorld a N` is `a.x * B + a.y * C + a.z * N`. -/
theorem toWorld_frame_orthonormal (N : Vector3f) (hN : N.norm = 1) :
    (|N.x| > |N.y| → 0 < Real.sqrt (N.x * N.x + N.z * N.z)) ∧
    (¬ |N.x| > |N.y| → 0 < Real.sqrt (N.y * N.y + N.z * N.z)) ∧
    (toWorldB N).norm = 1 ∧ (toWorldC N).norm = 1 ∧
    dotProduct (toWorldB N) (toWorldC N) = 0 ∧
    dotProduct (toWorldB N) N = 0 ∧
    dotProduct (toWorldC N) N = 0 ∧
    crossProduct (toWorldB N) (toWorldC N) = N ∧
    (∀ a : Vector3f, toWorld a N = a.x * toWorldB N + a.y * toWorldC N + a.z * N) := by
  rw [norm_eq_one_iff] at hN
  have hpos := toWorldRadicand_pos N hN
  obtain ⟨hB, hC, hBC, hBN, hCN, hX⟩ := toWorld_frame_dot N hN
  refine ⟨?_, ?_, (norm_eq_one_iff _).mpr hB, (norm_eq_one_iff _).mpr hC, hBC, hBN, hCN, hX,
    fun _ => rfl⟩
  · intro h
    unfold toWorldRadicand at hpos
    rw [if_pos h] at hpos
    exact Real.sqrt_pos.mpr hpos
  · intro h
    unfold toWorldRadicand at hpos
    rw [if_neg h] at hpos
    exact Real.sqrt_pos.mpr hpos

/-- The three coordinate axes are unit normals, and `toWorld` builds a right-handed
frame around each of them. -/
theorem toWorld_frame_orthonormal_witness :
    ((⟨1, 0, 0⟩ : Vector3f).norm = 1 ∧
      crossProduct (toWorldB ⟨1, 0, 0⟩) (toWorldC ⟨1, 0, 0⟩) = ⟨1, 0, 0⟩) ∧
    ((⟨0, 1, 0⟩ : Vector3f).norm = 1 ∧
      crossProduct (toWorldB ⟨0, 1, 0⟩) (toWorldC ⟨0, 1, 0⟩) = ⟨0, 1, 0⟩) ∧
    ((⟨0, 0, 1⟩ : Vector3f).norm = 1 ∧
      crossProduct (toWorldB ⟨0, 0, 1⟩) (toWorldC ⟨0, 0, 1⟩) = ⟨0, 0, 1⟩) := by
  have hx : (⟨1, 0, 0⟩ : Vector3f).norm = 1 := by simp [Vector3f.norm]
  have hy : (⟨0, 1, 0⟩ : Vector3f).norm = 1 := by simp [Vector3f.norm]
  have hz : (⟨0, 0, 1⟩ : Vector3f).norm = 1 := by simp [Vector3f.norm]
  exact ⟨⟨hx, (toWorld_frame_orthonormal _ hx).2.2.2.2.2.2.2.1⟩,
    ⟨hy, (toWorld_frame_orthonormal _ hy).2.2.2.2.2.2.2.1⟩,
    ⟨hz, (toWorld_frame_orthonormal _ hz).2.2.2.2.2.2.2.1⟩⟩

/-! ## C4 and C7: the hemisphere guard and the Diffuse reflectance -/

/-- C4. For both material kinds and all vectors `wi`, `wo`, `N`: if `dotProduct wo N` or
`dotProduct wi N` is below `EPSILON`, then `pdf` returns `0` and `eval` returns the zero
vector, whatever `Kd`, `Ks` and `roughness` are. -/
theorem hemisphere_guard (EPSILON : ℝ) (m : Material) (wi wo N : Vector3f)
    (h : dotProduct wo N < EPSILON ∨ dotProduct wi N < EPSILON) :
    m.pdf EPSILON wi wo N = 0 ∧ m.eval EPSILON wi wo N = ⟨0, 0, 0⟩ := by
  constructor
  · unfold Material.pdf
    rw [if_pos h]
  · unfold Material.eval
    have h2 : dotProduct N wo < EPSILON ∨ dotProduct N wi < EPSILON := by
      rw [dotProduct_comm N wo, dotProduct_comm N wi]; exact h
    rw [if_pos h2]
    rfl

/-- The guard at an incident direction below the surface: a Diffuse material with
`EPSILON = 1/100000`, `N = wi = (0,0,1)` and `wo = (0,0,-1)`. -/
theorem hemisphere_guard_witness :
    (dotProduct ⟨0, 0, -1⟩ ⟨0, 0, 1⟩ < (1 / 100000 : ℝ) ∨
      dotProduct ⟨0, 0, 1⟩ ⟨0, 0, 1⟩ < (1 / 100000 : ℝ)) ∧
    (Material.mk .DIFFUSE ⟨0, 0, 0⟩ 1 1 ⟨1, 1, 1⟩ ⟨1, 1, 1⟩ 0).pdf (1 / 100000)
      ⟨0, 0, 1⟩ ⟨0, 0, -1⟩ ⟨0, 0, 1⟩ = 0 ∧
    (Material.mk .DIFFUSE ⟨0, 0, 0⟩ 1 1 ⟨1, 1, 1⟩ ⟨1, 1, 1⟩ 0).eval (1 / 100000)
      ⟨0, 0, 1⟩ ⟨0, 0, -1⟩ ⟨0, 0, 1⟩ = ⟨0, 0, 0⟩ := by
  have h : dotProduct ⟨0, 0, -1⟩ ⟨0, 0, 1⟩ < (1 / 100000 : ℝ) ∨
      dotProduct ⟨0, 0, 1⟩ ⟨0, 0, 1⟩ < (1 / 100000 : ℝ) := by
    left; norm_num [dotProduct]
  exact ⟨h, hemisphere_guard (1 / 100000) _ ⟨0, 0, 1⟩ ⟨0, 0, -1⟩ ⟨0, 0, 1⟩ h⟩

/-- C7. For a Diffuse material and all `wi`, `wo`, `N` that pass the guard
(`dotProduct N wo >= EPSILON` and `dotProduct N wi >= EPSILON`), `eval` is `Kd / M_PI`,
a value in which `wi`, `wo`, `N`, `roughness`, `Ks` and `ior` do not occur. -/
theorem diffuse_eval_const (EPSILON : ℝ) (m : Material) (wi wo N : Vector3f)
    (hm : m.m_type = MaterialType.DIFFUSE)
    (hV : EPSILON ≤ dotProduct N wo) (hL : EPSILON ≤ dotProduct N wi) :
    m.eval EPSILON wi wo N = m.Kd / M_PI ∧
    m.eval EPSILON wi wo N = ⟨m.Kd.x / Real.pi, m.Kd.y / Real.pi, m.Kd.z / Real.pi⟩ := by
  have hg : ¬ (dotProduct N wo < EPSILON ∨ dotProduct N wi < EPSILON) := by
    rintro (h | h)
    · exact absurd h (not_lt.mpr hV)
    · exact absurd h (not_lt.mpr hL)
  have h1 : m.eval EPSILON wi wo N = m.Kd / M_PI := by
    unfold Material.eval
    simp only [if_neg hg, hm]
  exact ⟨h1, h1.trans rfl⟩

/-- The white wall material of the scene, seen head-on: `eval` is `Kd / M_PI`. -/
theorem diffuse_eval_const_witness :
    (Material.mk .DIFFUSE ⟨0, 0, 0⟩ 1 1 ⟨0.725, 0.71, 0.68⟩ ⟨0, 0, 0⟩ 0).eval (1 / 100000)
      ⟨0, 0, 1⟩ ⟨0, 0, 1⟩ ⟨0, 0, 1⟩ = ⟨0.725 / Real.pi, 0.71 / Real.pi, 0.68 / Real.pi⟩ :=
  (diffuse_eval_const (1 / 100000)
    (Material.mk .DIFFUSE ⟨0, 0, 0⟩ 1 1 ⟨0.725, 0.71, 0.68⟩ ⟨0, 0, 0⟩ 0)
    ⟨0, 0, 1⟩ ⟨0, 0, 1⟩ ⟨0, 0, 1⟩ rfl
    (by norm_num [dotProduct]) (by norm_num [dotProduct])).2

/-! ## Lemmas on `normalize` and on dot products -/

/-- The function `normalize` scales its argument by a positive factor, the inverse of
the length when the vector is not zero. -/
theorem normalize_eq_scale (v : Vector3f) :
    ∃ c : ℝ, 0 < c ∧ normalize v = v * c ∧
      (0 < dotProduct v v → c = 1 / Real.sqrt (dotProduct v v)) := by
  by_cases h : v.x * v.x + v.y * v.y + v.z * v.z > 0
  · refine ⟨1 / Real.sqrt (v.x * v.x + v.y * v.y + v.z * v.z), ?_, ?_, fun _ => rfl⟩
    · exact one_div_pos.mpr (Real.sqrt_pos.mpr h)
    · unfold normalize
      simp only [if_pos h]
      rfl
  · refine ⟨1, one_pos, ?_, fun h0 => absurd h0 h⟩
    unfold normalize
    simp only [if_neg h]
    apply Vector3f.ext <;> simp

theorem dotProduct_scale (a v : Vector3f) (c : ℝ) :
    dotProduct a (v * c) = dotProduct a v * c := by
  simp only [dotProduct, muls_x, muls_y, muls_z]; ring

theorem vadd_comm (a b : Vector3f) : a + b = b + a := by
  apply Vector3f.ext <;> simp [add_comm]

/-- Cauchy-Schwarz for `dotProduct`. -/
theorem dotProduct_sq_le (a b : Vector3f) :
    dotProduct a b * dotProduct a b ≤ dotProduct a a * dotProduct b b := by
  unfold dotProduct
  nlinarith [mul_self_nonneg (a.x * b.y - a.y * b.x), mul_self_nonneg (a.y * b.z - a.z * b.y),
    mul_self_nonneg (a.z * b.x - a.x * b.z)]

/-- The dot product of two unit vectors lies in `[-1, 1]`. -/
theorem dotProduct_unit_bounds (a b : Vector3f) (ha : dotProduct a a = 1)
    (hb : dotProduct b b = 1) : -1 ≤ dotProduct a b ∧ dotProduct a b ≤ 1 := by
  have h := dotProduct_sq_le a b
  rw [ha, hb] at h
  constructor <;> nlinarith

/-- For unit `wi`, `wo` the two directions make the same angle with their half-vector. -/
theorem dotProduct_half_symm (wi wo : Vector3f) (hwi : dotProduct wi wi = 1)
    (hwo : dotProduct wo wo = 1) :
    dotProduct wi (normalize (wi + wo)) = dotProduct wo (normalize (wi + wo)) := by
  obtain ⟨c, -, hn, -⟩ := normalize_eq_scale (wi + wo)
  rw [hn, dotProduct_scale, dotProduct_scale]
  unfold dotProduct at *
  simp only [add_x, add_y, add_z]
  linear_combination c * (hwi - hwo)

/-! ## C3: reciprocity of the Microfacet reflectance -/

/-- C3. For a Microfacet material (any `Ks`, any `roughness`), every `N` and all unit
directions `wi`, `wo`: the hemisphere guard, the half-vector and the clamped `LoH` are
unchanged by swapping `wi` and `wo`, and `eval wi wo N = eval wo wi N` (as vectors, so
channel by channel). -/
theorem microfacet_eval_reciprocal (EPSILON : ℝ) (m : Material) (wi wo N : Vector3f)
    (hm : m.m_type = MaterialType.MICROFACET) (hwi : wi.norm = 1) (hwo : wo.norm = 1) :
    ((dotProduct N wo < EPSILON ∨ dotProduct N wi < EPSILON) ↔
      (dotProduct N wi < EPSILON ∨ dotProduct N wo < EPSILON)) ∧
    normalize (wi + wo) = normalize (wo + wi) ∧
    clamp 0 1 (dotProduct wi (normalize (wi + wo))) =
      clamp 0 1 (dotProduct wo (normalize (wo + wi))) ∧
    m.eval EPSILON wi wo N = m.eval EPSILON wo wi N := by
  rw [norm_eq_one_iff] at hwi hwo
  have hadd : wo + wi = wi + wo := vadd_comm wo wi
  have hLoH := dotProduct_half_symm wi wo hwi hwo
  refine ⟨Or.comm, by rw [hadd], by rw [hadd, hLoH], ?_⟩
  by_cases hg : dotProduct N wo < EPSILON ∨ dotProduct N wi < EPSILON
  · simp only [Material.eval, if_pos hg, if_pos hg.symm]
  · have hg2 : ¬ (dotProduct N wi < EPSILON ∨ dotProduct N wo < EPSILON) := fun h => hg h.symm
    simp only [Material.eval, if_neg hg, if_neg hg2, hm, hadd, hLoH]
    rw [add_comm (dotProduct N wi * _) (dotProduct N wo * _)]

/-- Reciprocity for the silver material of the scene (`roughness = 0.3`), between the
normal direction and a direction tilted by `3 : 4 : 5`. -/
theorem microfacet_eval_reciprocal_witness :
    (Material.mk .MICROFACET ⟨0, 0, 0⟩ 1 0.3 ⟨0, 0, 0⟩ ⟨0.97, 0.96, 0.91⟩ 0).eval (1 / 100000)
      ⟨0, 0, 1⟩ ⟨3 / 5, 0, 4 / 5⟩ ⟨0, 0, 1⟩ =
    (Material.mk .MICROFACET ⟨0, 0, 0⟩ 1 0.3 ⟨0, 0, 0⟩ ⟨0.97, 0.96, 0.91⟩ 0).eval (1 / 100000)
      ⟨3 / 5, 0, 4 / 5⟩ ⟨0, 0, 1⟩ ⟨0, 0, 1⟩ :=
  (microfacet_eval_reciprocal (1 / 100000)
    (Material.mk .MICROFACET ⟨0, 0, 0⟩ 1 0.3 ⟨0, 0, 0⟩ ⟨0.97, 0.96, 0.91⟩ 0)
    ⟨0, 0, 1⟩ ⟨3 / 5, 0, 4 / 5⟩ ⟨0, 0, 1⟩ rfl
    (by rw [norm_eq_one_iff]; norm_num [dotProduct])
    (by rw [norm_eq_one_iff]; norm_num [dotProduct])).2.2.2

/-! ## C5: the density is never negative -/

theorem dotProduct_self_nonneg (a : Vector3f) : 0 ≤ dotProduct a a := by
  unfold dotProduct
  nlinarith [mul_self_nonneg a.x, mul_self_nonneg a.y, mul_self_nonneg a.z]

theorem dotProduct_add_right (a b c : Vector3f) :
    dotProduct a (b + c) = dotProduct a b + dotProduct a c := by
  simp only [dotProduct, add_x, add_y, add_z]; ring

/-- The GGX distribution is never negative. -/
theorem D_GGX_nonneg (EPSILON alpha NoH : ℝ) : 0 ≤ D_GGX EPSILON alpha NoH := by
  unfold D_GGX M_PI
  apply div_nonneg (mul_self_nonneg alpha)
  rw [mul_assoc]
  exact mul_nonneg Real.pi_pos.le (mul_self_nonneg _)

/-- Two directions that pass the hemisphere guard do not cancel: their sum has positive
squared length. -/
theorem sum_dot_self_pos (EPSILON : ℝ) (hE : 0 < EPSILON) (wi wo N : Vector3f)
    (hwoN : EPSILON ≤ dotProduct wo N) (hwiN : EPSILON ≤ dotProduct wi N) :
    0 < dotProduct N (wo + wi) ∧ 0 < dotProduct (wo + wi) (wo + wi) := by
  have h1 : 0 < dotProduct N (wo + wi) := by
    rw [dotProduct_add_right, dotProduct_comm N wo, dotProduct_comm N wi]
    linarith
  refine ⟨h1, ?_⟩
  have hcs := dotProduct_sq_le N (wo + wi)
  have hsq : 0 < dotProduct N (wo + wi) * dotProduct N (wo + wi) := mul_pos h1 h1
  have hNN := dotProduct_self_nonneg N
  have hss := dotProduct_self_nonneg (wo + wi)
  rcases hss.lt_or_eq with h | h
  · exact h
  · rw [← h, mul_zero] at hcs
    exact absurd hsq (not_lt.mpr hcs)

/-- Once the guard passes, the half-vector `h = normalize (wo + wi)` of two unit
directions has `dotProduct N h > 0` and `dotProduct wo h > 0`. -/
theorem half_vector_pos (EPSILON : ℝ) (hE : 0 < EPSILON) (wi wo N : Vector3f)
    (hwi : dotProduct wi wi = 1) (hwo : dotProduct wo wo = 1)
    (hwoN : EPSILON ≤ dotProduct wo N) (hwiN : EPSILON ≤ dotProduct wi N) :
    0 < dotProduct N (normalize (wo + wi)) ∧ 0 < dotProduct wo (normalize (wo + wi)) := by
  obtain ⟨h1, h2⟩ := sum_dot_self_pos EPSILON hE wi wo N hwoN hwiN
  obtain ⟨c, hc, hn, -⟩ := normalize_eq_scale (wo + wi)
  rw [hn, dotProduct_scale, dotProduct_scale]
  refine ⟨mul_pos h1 hc, mul_pos ?_ hc⟩
  rw [dotProduct_add_right, hwo]
  have h3 : dotProduct (wo + wi) (wo + wi) = 2 + 2 * dotProduct wo wi := by
    unfold dotProduct at hwi hwo ⊢
    simp only [add_x, add_y, add_z]
    linear_combination hwi + hwo
  linarith

/-- C5. With `EPSILON > 0`: for both material kinds, every `roughness`, every `N` and
all unit directions `wi`, `wo`, `pdf wi wo N >= 0`; and once the guard passes,
`D_GGX >= 0`, `dotProduct N h > 0` and `dotProduct wo h > 0` for the half-vector
`h = normalize (wo + wi)` that `pdf` computes (which is also `normalize (wi + wo)`). -/
theorem pdf_nonneg (EPSILON : ℝ) (hE : 0 < EPSILON) (m : Material) (wi wo N : Vector3f)
    (_hN : N.norm = 1) (hwi : wi.norm = 1) (hwo : wo.norm = 1) :
    0 ≤ m.pdf EPSILON wi wo N ∧
    (EPSILON ≤ dotProduct wo N → EPSILON ≤ dotProduct wi N →
      normalize (wo + wi) = normalize (wi + wo) ∧
      0 ≤ D_GGX EPSILON (m.roughness * m.roughness) (dotProduct N (normalize (wi + wo))) ∧
      0 < dotProduct N (normalize (wi + wo)) ∧
      0 < dotProduct wo (normalize (wi + wo))) := by
  rw [norm_eq_one_iff] at hwi hwo
  constructor
  · unfold Material.pdf
    split_ifs with hg
    · exact le_refl 0
    · rw [not_or, not_lt, not_lt] at hg
      obtain ⟨hNh, hoh⟩ := half_vector_pos EPSILON hE wi wo N hwi hwo hg.1 hg.2
      cases m.m_type with
      | DIFFUSE =>
        simp only [M_PI]
        exact div_nonneg (by norm_num) Real.pi_pos.le
      | MICROFACET =>
        simp only
        exact div_nonneg (mul_nonneg (D_GGX_nonneg _ _ _) hNh.le)
          (mul_nonneg (by norm_num) hoh.le)
  · intro hwoN hwiN
    obtain ⟨hNh, hoh⟩ := half_vector_pos EPSILON hE wi wo N hwi hwo hwoN hwiN
    rw [vadd_comm wo wi] at hNh hoh
    exact ⟨by rw [vadd_comm], D_GGX_nonneg _ _ _, hNh, hoh⟩

/-- The density of the silver material (`roughness = 0.3`) between the normal direction
and a direction tilted by `3 : 4 : 5` is not negative. -/
theorem pdf_nonneg_witness :
    0 ≤ (Material.mk .MICROFACET ⟨0, 0, 0⟩ 1 0.3 ⟨0, 0, 0⟩ ⟨0.97, 0.96, 0.91⟩ 0).pdf
      (1 / 100000) ⟨0, 0, 1⟩ ⟨3 / 5, 0, 4 / 5⟩ ⟨0, 0, 1⟩ :=
  (pdf_nonneg (1 / 100000) (by norm_num)
    (Material.mk .MICROFACET ⟨0, 0, 0⟩ 1 0.3 ⟨0, 0, 0⟩ ⟨0.97, 0.96, 0.91⟩ 0)
    ⟨0, 0, 1⟩ ⟨3 / 5, 0, 4 / 5⟩ ⟨0, 0, 1⟩
    (by rw [norm_eq_one_iff]; norm_num [dotProduct])
    (by rw [norm_eq_one_iff]; norm_num [dotProduct])
    (by rw [norm_eq_one_iff]; norm_num [dotProduct])).1

/-! ## C6: the reflectance is never negative -/

theorem clamp01_bounds (v : ℝ) : 0 ≤ clamp 0 1 v ∧ clamp 0 1 v ≤ 1 := by
  unfold clamp
  exact ⟨le_max_left _ _, max_le zero_le_one (min_le_left _ _)⟩

/-- The Schlick term built from a coefficient `k` in `[0,1]` and a clamped cosine is
not negative. -/
theorem schlick_nonneg (k v : ℝ) (hk0 : 0 ≤ k) (hk1 : k ≤ 1) :
    0 ≤ k + (1 - k) * (1 - clamp 0 1 v) ^ 5 := by
  have h := (clamp01_bounds v).2
  have h5 : 0 ≤ (1 - clamp 0 1 v) ^ 5 := pow_nonneg (by linarith) 5
  have : 0 ≤ (1 - k) * (1 - clamp 0 1 v) ^ 5 := mul_nonneg (by linarith) h5
  linarith

/-- One summand of the denominator of the visibility term is strictly positive when
both cosines are positive and `alphaSq` lies in `[0,1]`. -/
theorem lambda_pos (a b alphaSq : ℝ) (ha : 0 < a) (hb : 0 < b) (h0 : 0 ≤ alphaSq)
    (h1 : alphaSq ≤ 1) : 0 < a * Real.sqrt (b * b * (1 - alphaSq) + alphaSq) := by
  apply mul_pos ha
  apply Real.sqrt_pos.mpr
  have hbb : 0 < b * b := mul_pos hb hb
  rcases h1.lt_or_eq with h | h
  · have : 0 < b * b * (1 - alphaSq) := mul_pos hbb (by linarith)
    linarith
  · rw [h]; norm_num

/-- C6. With `EPSILON > 0`, every channel of `Kd` and `Ks` in `[0,1]` and `roughness` in
`[0,1]`: for both material kinds, every unit `N` and all unit `wi`, `wo`, every channel
of `eval wi wo N` is `>= 0`; and once the guard passes, the denominator
`lambdaV + lambdaL` of the visibility term is strictly positive. -/
theorem eval_nonneg (EPSILON : ℝ) (hE : 0 < EPSILON) (m : Material) (wi wo N : Vector3f)
    (hKd : (0 ≤ m.Kd.x ∧ m.Kd.x ≤ 1) ∧ (0 ≤ m.Kd.y ∧ m.Kd.y ≤ 1) ∧ (0 ≤ m.Kd.z ∧ m.Kd.z ≤ 1))
    (hKs : (0 ≤ m.Ks.x ∧ m.Ks.x ≤ 1) ∧ (0 ≤ m.Ks.y ∧ m.Ks.y ≤ 1) ∧ (0 ≤ m.Ks.z ∧ m.Ks.z ≤ 1))
    (hr : 0 ≤ m.roughness ∧ m.roughness ≤ 1)
    (_hN : N.norm = 1) (_hwi : wi.norm = 1) (_hwo : wo.norm = 1) :
    (0 ≤ (m.eval EPSILON wi wo N).x ∧ 0 ≤ (m.eval EPSILON wi wo N).y ∧
      0 ≤ (m.eval EPSILON wi wo N).z) ∧
    (EPSILON ≤ dotProduct N wo → EPSILON ≤ dotProduct N wi →
      0 < dotProduct N wi * Real.sqrt (dotProduct N wo * dotProduct N wo *
            (1 - m.roughness * m.roughness * (m.roughness * m.roughness)) +
            m.roughness * m.roughness * (m.roughness * m.roughness)) +
          dotProduct N wo * Real.sqrt (dotProduct N wi * dotProduct N wi *
            (1 - m.roughness * m.roughness * (m.roughness * m.roughness)) +
            m.roughness * m.roughness * (m.roughness * m.roughness))) := by
  have ha0 : 0 ≤ m.roughness * m.roughness * (m.roughness * m.roughness) :=
    mul_self_nonneg _
  have ha1 : m.roughness * m.roughness * (m.roughness * m.roughness) ≤ 1 := by
    have h2 : m.roughness * m.roughness ≤ 1 := by nlinarith [hr.1, hr.2]
    have h3 : 0 ≤ m.roughness * m.roughness := mul_self_nonneg _
    nlinarith
  have hden : EPSILON ≤ dotProduct N wo → EPSILON ≤ dotProduct N wi →
      0 < dotProduct N wi * Real.sqrt (dotProduct N wo * dotProduct N wo *
            (1 - m.roughness * m.roughness * (m.roughness * m.roughness)) +
            m.roughness * m.roughness * (m.roughness * m.roughness)) +
          dotProduct N wo * Real.sqrt (dotProduct N wi * dotProduct N wi *
            (1 - m.roughness * m.roughness * (m.roughness * m.roughness)) +
            m.roughness * m.roughness * (m.roughness * m.roughness)) := by
    intro hV hL
    have hV0 : 0 < dotProduct N wo := lt_of_lt_of_le hE hV
    have hL0 : 0 < dotProduct N wi := lt_of_lt_of_le hE hL
    exact add_pos (lambda_pos _ _ _ hL0 hV0 ha0 ha1) (lambda_pos _ _ _ hV0 hL0 ha0 ha1)
  refine ⟨?_, hden⟩
  unfold Material.eval
  by_cases hg : dotProduct N wo < EPSILON ∨ dotProduct N wi < EPSILON
  · simp only [if_pos hg, splat, le_refl, and_self]
  · simp only [if_neg hg]
    rw [not_or, not_lt, not_lt] at hg
    have hpi : 0 < Real.pi := Real.pi_pos
    cases m.m_type with
    | DIFFUSE =>
      simp only [divs_x, divs_y, divs_z, M_PI]
      exact ⟨div_nonneg hKd.1.1 hpi.le, div_nonneg hKd.2.1.1 hpi.le,
        div_nonneg hKd.2.2.1 hpi.le⟩
    | MICROFACET =>
      have hDV : 0 ≤ D_GGX EPSILON (m.roughness * m.roughness)
            (clamp 0 1 (dotProduct N (normalize (wi + wo)))) *
          (0.5 / (dotProduct N wi * Real.sqrt (dotProduct N wo * dotProduct N wo *
            (1 - m.roughness * m.roughness * (m.roughness * m.roughness)) +
            m.roughness * m.roughness * (m.roughness * m.roughness)) +
          dotProduct N wo * Real.sqrt (dotProduct N wi * dotProduct N wi *
            (1 - m.roughness * m.roughness * (m.roughness * m.roughness)) +
            m.roughness * m.roughness * (m.roughness * m.roughness)))) :=
        mul_nonneg (D_GGX_nonneg _ _ _) (div_nonneg (by norm_num) (hden hg.1 hg.2).le)
      simp only [smul_x, smul_y, smul_z, add_x, add_y, add_z, muls_x, muls_y, muls_z,
        sub_x, sub_y, sub_z, splat]
      exact ⟨mul_nonneg (schlick_nonneg _ _ hKs.1.1 hKs.1.2) hDV,
        mul_nonneg (schlick_nonneg _ _ hKs.2.1.1 hKs.2.1.2) hDV,
        mul_nonneg (schlick_nonneg _ _ hKs.2.2.1 hKs.2.2.2) hDV⟩

/-- The reflectance of the silver material (`roughness = 0.3`) between the normal
direction and a direction tilted by `3 : 4 : 5` has no negative channel. -/
theorem eval_nonneg_witness :
    0 ≤ ((Material.mk .MICROFACET ⟨0, 0, 0⟩ 1 0.3 ⟨0, 0, 0⟩ ⟨0.97, 0.96, 0.91⟩ 0).eval
      (1 / 100000) ⟨0, 0, 1⟩ ⟨3 / 5, 0, 4 / 5⟩ ⟨0, 0, 1⟩).x ∧
    0 ≤ ((Material.mk .MICROFACET ⟨0, 0, 0⟩ 1 0.3 ⟨0, 0, 0⟩ ⟨0.97, 0.96, 0.91⟩ 0).eval
      (1 / 100000) ⟨0, 0, 1⟩ ⟨3 / 5, 0, 4 / 5⟩ ⟨0, 0, 1⟩).y ∧
    0 ≤ ((Material.mk .MICROFACET ⟨0, 0, 0⟩ 1 0.3 ⟨0, 0, 0⟩ ⟨0.97, 0.96, 0.91⟩ 0).eval
      (1 / 100000) ⟨0, 0, 1⟩ ⟨3 / 5, 0, 4 / 5⟩ ⟨0, 0, 1⟩).z :=
  (eval_nonneg (1 / 100000) (by norm_num)
    (Material.mk .MICROFACET ⟨0, 0, 0⟩ 1 0.3 ⟨0, 0, 0⟩ ⟨0.97, 0.96, 0.91⟩ 0)
    ⟨0, 0, 1⟩ ⟨3 / 5, 0, 4 / 5⟩ ⟨0, 0, 1⟩
    (by norm_num) (by norm_num) (by norm_num)
    (by rw [norm_eq_one_iff]; norm_num [dotProduct])
    (by rw [norm_eq_one_iff]; norm_num [dotProduct])
    (by rw [norm_eq_one_iff]; norm_num [dotProduct])).1

/-! ## C8: Diffuse sampling stays on the unit hemisphere -/

/-- The local ray of the Diffuse sampler has unit length for a draw `x_1` in `[0,1]`. -/
theorem diffuse_localRay_unit (x_1 phi : ℝ) (h0 : 0 ≤ x_1) (h1 : x_1 ≤ 1) :
    dotProduct
      ⟨Real.sqrt (1 - |1 - 2 * x_1| * |1 - 2 * x_1|) * Real.cos phi,
        Real.sqrt (1 - |1 - 2 * x_1| * |1 - 2 * x_1|) * Real.sin phi, |1 - 2 * x_1|⟩
      ⟨Real.sqrt (1 - |1 - 2 * x_1| * |1 - 2 * x_1|) * Real.cos phi,
        Real.sqrt (1 - |1 - 2 * x_1| * |1 - 2 * x_1|) * Real.sin phi, |1 - 2 * x_1|⟩ = 1 := by
  have hz : |1 - 2 * x_1| ≤ 1 := abs_le.mpr ⟨by linarith, by linarith⟩
  have hz0 : 0 ≤ |1 - 2 * x_1| := abs_nonneg _
  have hr : 0 ≤ 1 - |1 - 2 * x_1| * |1 - 2 * x_1| := by nlinarith
  have hs := Real.mul_self_sqrt hr
  have hcs := Real.sin_sq_add_cos_sq phi
  simp only [dotProduct]
  generalize Real.sqrt (1 - |1 - 2 * x_1| * |1 - 2 * x_1|) = r at hs
  linear_combination (r * r) * hcs + hs

/-- The Diffuse sample in terms of dot products: unit length, and height `|1 - 2 * x1|`
above the surface. -/
theorem diffuse_sample_dot (m : Material) (x1 x2 : ℝ) (wi N : Vector3f)
    (hm : m.m_type = MaterialType.DIFFUSE) (hN : dotProduct N N = 1)
    (h0 : 0 ≤ x1) (h1 : x1 ≤ 1) :
    dotProduct (m.sample x1 x2 wi N) (m.sample x1 x2 wi N) = 1 ∧
    dotProduct (m.sample x1 x2 wi N) N = |1 - 2 * x1| := by
  simp only [Material.sample, hm]
  obtain ⟨e1, e2⟩ := toWorld_dot
    ⟨Real.sqrt (1 - |1 - 2 * x1| * |1 - 2 * x1|) * Real.cos (2 * M_PI * x2),
      Real.sqrt (1 - |1 - 2 * x1| * |1 - 2 * x1|) * Real.sin (2 * M_PI * x2), |1 - 2 * x1|⟩
    N hN
  rw [e1, e2]
  exact ⟨diffuse_localRay_unit x1 _ h0 h1, rfl⟩

/-- C8. For a Diffuse material, every unit normal `N`, every `wi` and all draws `x1`, `x2`
in `[0,1)`, the direction `wo = sample wi N` has unit norm and
`dotProduct wo N = |1 - 2 * x1| >= 0`. -/
theorem diffuse_sample_unit (m : Material) (x1 x2 : ℝ) (wi N : Vector3f)
    (hm : m.m_type = MaterialType.DIFFUSE) (hN : N.norm = 1)
    (hx1 : 0 ≤ x1 ∧ x1 < 1) (_hx2 : 0 ≤ x2 ∧ x2 < 1) :
    (m.sample x1 x2 wi N).norm = 1 ∧
    dotProduct (m.sample x1 x2 wi N) N = |1 - 2 * x1| ∧
    0 ≤ dotProduct (m.sample x1 x2 wi N) N := by
  rw [norm_eq_one_iff] at hN ⊢
  obtain ⟨h1, h2⟩ := diffuse_sample_dot m x1 x2 wi N hm hN hx1.1 hx1.2.le
  exact ⟨h1, h2, h2 ▸ abs_nonneg _⟩

/-- The white wall material with normal `(0,0,1)` and draws `x1 = 1/4`, `x2 = 0`: the
sampled direction is a unit vector at height `1/2` above the surface. -/
theorem diffuse_sample_unit_witness :
    ((Material.mk .DIFFUSE ⟨0, 0, 0⟩ 1 1 ⟨0.725, 0.71, 0.68⟩ ⟨0, 0, 0⟩ 0).sample (1 / 4) 0
      ⟨0, 0, 1⟩ ⟨0, 0, 1⟩).norm = 1 ∧
    dotProduct ((Material.mk .DIFFUSE ⟨0, 0, 0⟩ 1 1 ⟨0.725, 0.71, 0.68⟩ ⟨0, 0, 0⟩ 0).sample
      (1 / 4) 0 ⟨0, 0, 1⟩ ⟨0, 0, 1⟩) ⟨0, 0, 1⟩ = |1 - 2 * (1 / 4 : ℝ)| :=
  ⟨(diffuse_sample_unit
      (Material.mk .DIFFUSE ⟨0, 0, 0⟩ 1 1 ⟨0.725, 0.71, 0.68⟩ ⟨0, 0, 0⟩ 0) (1 / 4) 0
      ⟨0, 0, 1⟩ ⟨0, 0, 1⟩ rfl (by rw [norm_eq_one_iff]; norm_num [dotProduct])
      (by norm_num) (by norm_num)).1,
    (diffuse_sample_unit
      (Material.mk .DIFFUSE ⟨0, 0, 0⟩ 1 1 ⟨0.725, 0.71, 0.68⟩ ⟨0, 0, 0⟩ 0) (1 / 4) 0
      ⟨0, 0, 1⟩ ⟨0, 0, 1⟩ rfl (by rw [norm_eq_one_iff]; norm_num [dotProduct])
      (by norm_num) (by norm_num)).2.1⟩

/-! ## C2: the sampler and the density -/

/-- Reflecting a unit vector about a unit vector gives a unit vector. -/
theorem reflect_unit (I h : Vector3f) (hI : dotProduct I I = 1) (hh : dotProduct h h = 1) :
    dotProduct (reflect I h) (reflect I h) = 1 := by
  unfold reflect
  unfold dotProduct at *
  simp only [sub_x, sub_y, sub_z, smul_x, smul_y, smul_z]
  linear_combination hI + 4 * (I.x * h.x + I.y * h.y + I.z * h.z) ^ 2 * hh

theorem neg_dot_self (a : Vector3f) : dotProduct (-a) (-a) = dotProduct a a := by
  simp only [dotProduct, neg_x, neg_y, neg_z]; ring

/-- The Microfacet sample of a unit `wi` around a unit `N` is a unit vector. -/
theorem microfacet_sample_dot (m : Material) (e1 e2 : ℝ) (wi N : Vector3f)
    (hm : m.m_type = MaterialType.MICROFACET) (hN : dotProduct N N = 1)
    (hwi : dotProduct wi wi = 1) :
    dotProduct (m.sample e1 e2 wi N) (m.sample e1 e2 wi N) = 1 := by
  simp only [Material.sample, hm]
  apply reflect_unit _ _ (by rw [neg_dot_self]; exact hwi)
  rw [(toWorld_dot _ N hN).1]
  simp only [dotProduct]
  generalize Real.arccos _ = theta
  generalize 2 * M_PI * e1 = phi
  linear_combination (Real.sin theta) ^ 2 * Real.sin_sq_add_cos_sq phi
    + Real.sin_sq_add_cos_sq theta

/-- The GGX distribution is strictly positive when `alpha` is not zero. -/
theorem D_GGX_pos (EPSILON alpha NoH : ℝ) (hE : 0 < EPSILON) (ha : alpha ≠ 0) :
    0 < D_GGX EPSILON alpha NoH := by
  unfold D_GGX M_PI
  have hd : 0 < max EPSILON ((alpha * alpha - 1) * NoH * NoH + 1) :=
    lt_of_lt_of_le hE (le_max_left _ _)
  exact div_pos (mul_self_pos.mpr ha) (mul_pos (mul_pos Real.pi_pos hd) hd)

/-- The density of a pair of unit directions that passes the guard is strictly positive,
for a Diffuse material and for a Microfacet material of non-zero roughness. -/
theorem pdf_pos_of_guard (EPSILON : ℝ) (hE : 0 < EPSILON) (m : Material) (wi wo N : Vector3f)
    (hr : m.m_type = MaterialType.MICROFACET → m.roughness ≠ 0)
    (hwi : dotProduct wi wi = 1) (hwo : dotProduct wo wo = 1)
    (hwiN : EPSILON ≤ dotProduct wi N) (hwoN : EPSILON ≤ dotProduct wo N) :
    0 < m.pdf EPSILON wi wo N := by
  have hg : ¬ (dotProduct wo N < EPSILON ∨ dotProduct wi N < EPSILON) := by
    rw [not_or, not_lt, not_lt]; exact ⟨hwoN, hwiN⟩
  obtain ⟨hNh, hoh⟩ := half_vector_pos EPSILON hE wi wo N hwi hwo hwoN hwiN
  unfold Material.pdf
  rw [if_neg hg]
  revert hr
  cases m.m_type with
  | DIFFUSE =>
    intro _
    simp only [M_PI]
    exact div_pos (by norm_num) Real.pi_pos
  | MICROFACET =>
    intro hr
    have hr0 := hr rfl
    simp only
    exact div_pos (mul_pos (D_GGX_pos _ _ _ hE (mul_ne_zero hr0 hr0)) hNh)
      (mul_pos (by norm_num) hoh)

/-- A Microfacet material of roughness `0` has density `0` everywhere. -/
theorem pdf_roughness_zero (EPSILON : ℝ) (m : Material) (wi wo N : Vector3f)
    (hm : m.m_type = MaterialType.MICROFACET) (hr : m.roughness = 0) :
    m.pdf EPSILON wi wo N = 0 := by
  unfold Material.pdf
  split_ifs
  · rfl
  · simp only [hm, hr, D_GGX, mul_zero, zero_div, zero_mul]

/-- With the second draw `0`, the Microfacet sampler picks the normal as half-vector:
for `wi = N = (0,0,1)` the sample is `(0,0,1)` again, whatever the roughness. -/
theorem microfacet_sample_head_on (m : Material) (e1 : ℝ)
    (hm : m.m_type = MaterialType.MICROFACET) :
    m.sample e1 0 ⟨0, 0, 1⟩ ⟨0, 0, 1⟩ = ⟨0, 0, 1⟩ := by
  simp only [Material.sample, hm]
  apply Vector3f.ext <;> simp [reflect, toWorld, dotProduct]
  norm_num

/-- C2 (amended). With `EPSILON > 0`: for every material (Diffuse, or Microfacet with
roughness in `(0,1]`), every unit normal `N`, every unit `wi` and every pair of draws in
`[0,1) x [0,1)`, let `wo = sample wi N` computed from those draws; if `wi` and `wo` both
pass the hemisphere guard (`dotProduct wi N >= EPSILON` and `dotProduct wo N >= EPSILON`),
then `pdf wi wo N > 0`. -/
theorem sample_pdf_pos (EPSILON : ℝ) (hE : 0 < EPSILON) (m : Material) (u1 u2 : ℝ)
    (wi N : Vector3f)
    (hr : m.m_type = MaterialType.MICROFACET → 0 < m.roughness ∧ m.roughness ≤ 1)
    (hN : N.norm = 1) (hwi : wi.norm = 1)
    (hu1 : 0 ≤ u1 ∧ u1 < 1) (_hu2 : 0 ≤ u2 ∧ u2 < 1)
    (hwiN : EPSILON ≤ dotProduct wi N)
    (hwoN : EPSILON ≤ dotProduct (m.sample u1 u2 wi N) N) :
    0 < m.pdf EPSILON wi (m.sample u1 u2 wi N) N := by
  rw [norm_eq_one_iff] at hN hwi
  have hwo : dotProduct (m.sample u1 u2 wi N) (m.sample u1 u2 wi N) = 1 := by
    cases hm : m.m_type with
    | DIFFUSE => exact (diffuse_sample_dot m u1 u2 wi N hm hN hu1.1 hu1.2.le).1
    | MICROFACET => exact microfacet_sample_dot m u1 u2 wi N hm hN hwi
  exact pdf_pos_of_guard EPSILON hE m wi _ N (fun h => (hr h).1.ne.symm) hwi hwo hwiN hwoN

/-- The silver material (`roughness = 0.3`) seen head-on, with both draws `0`: the
sample passes the guard and has positive density. -/
theorem sample_pdf_pos_witness :
    0 < (Material.mk .MICROFACET ⟨0, 0, 0⟩ 1 0.3 ⟨0, 0, 0⟩ ⟨0.97, 0.96, 0.91⟩ 0).pdf
      (1 / 100000) ⟨0, 0, 1⟩
      ((Material.mk .MICROFACET ⟨0, 0, 0⟩ 1 0.3 ⟨0, 0, 0⟩ ⟨0.97, 0.96, 0.91⟩ 0).sample 0 0
        ⟨0, 0, 1⟩ ⟨0, 0, 1⟩) ⟨0, 0, 1⟩ :=
  sample_pdf_pos (1 / 100000) (by norm_num)
    (Material.mk .MICROFACET ⟨0, 0, 0⟩ 1 0.3 ⟨0, 0, 0⟩ ⟨0.97, 0.96, 0.91⟩ 0) 0 0
    ⟨0, 0, 1⟩ ⟨0, 0, 1⟩ (fun _ => by norm_num)
    (by rw [norm_eq_one_iff]; norm_num [dotProduct])
    (by rw [norm_eq_one_iff]; norm_num [dotProduct])
    (by norm_num) (by norm_num) (by norm_num [dotProduct])
    (by rw [microfacet_sample_head_on _ 0 rfl]; norm_num [dotProduct])

/-- C2 fails as stated, with `EPSILON = 1/100000` and `N = wi = (0,0,1)`.
First, a Diffuse material with draws `x1 = 199999/400000`, `x2 = 0`: the sample `wo` is
above the surface (`dotProduct wo N = 1/200000 > 0`) but below the guard, and
`pdf wi wo N = 0`.  Second, a Microfacet material of roughness `0` with draws `0`, `0`:
the sample `wo` passes the guard (`dotProduct wo N = 1`), and `pdf wi wo N = 0`. -/
theorem sample_pdf_pos_counterexample :
    ((⟨0, 0, 1⟩ : Vector3f).norm = 1 ∧
      (0 ≤ (199999 / 400000 : ℝ) ∧ (199999 / 400000 : ℝ) < 1) ∧
      0 < dotProduct ⟨0, 0, 1⟩ ⟨0, 0, 1⟩ ∧
      0 < dotProduct ((Material.mk .DIFFUSE ⟨0, 0, 0⟩ 1 1 ⟨0.725, 0.71, 0.68⟩ ⟨0, 0, 0⟩ 0).sample
        (199999 / 400000) 0 ⟨0, 0, 1⟩ ⟨0, 0, 1⟩) ⟨0, 0, 1⟩ ∧
      ¬ 0 < (Material.mk .DIFFUSE ⟨0, 0, 0⟩ 1 1 ⟨0.725, 0.71, 0.68⟩ ⟨0, 0, 0⟩ 0).pdf
        (1 / 100000) ⟨0, 0, 1⟩
        ((Material.mk .DIFFUSE ⟨0, 0, 0⟩ 1 1 ⟨0.725, 0.71, 0.68⟩ ⟨0, 0, 0⟩ 0).sample
          (199999 / 400000) 0 ⟨0, 0, 1⟩ ⟨0, 0, 1⟩) ⟨0, 0, 1⟩) ∧
    ((1 / 100000 : ℝ) ≤ dotProduct
        ((Material.mk .MICROFACET ⟨0, 0, 0⟩ 1 0 ⟨0, 0, 0⟩ ⟨1, 1, 1⟩ 0).sample 0 0
          ⟨0, 0, 1⟩ ⟨0, 0, 1⟩) ⟨0, 0, 1⟩ ∧
      ¬ 0 < (Material.mk .MICROFACET ⟨0, 0, 0⟩ 1 0 ⟨0, 0, 0⟩ ⟨1, 1, 1⟩ 0).pdf (1 / 100000)
        ⟨0, 0, 1⟩
        ((Material.mk .MICROFACET ⟨0, 0, 0⟩ 1 0 ⟨0, 0, 0⟩ ⟨1, 1, 1⟩ 0).sample 0 0
          ⟨0, 0, 1⟩ ⟨0, 0, 1⟩) ⟨0, 0, 1⟩) := by
  have hN : dotProduct (⟨0, 0, 1⟩ : Vector3f) ⟨0, 0, 1⟩ = 1 := by norm_num [dotProduct]
  have hd := (diffuse_sample_dot
    (Material.mk .DIFFUSE ⟨0, 0, 0⟩ 1 1 ⟨0.725, 0.71, 0.68⟩ ⟨0, 0, 0⟩ 0) (199999 / 400000) 0
    ⟨0, 0, 1⟩ ⟨0, 0, 1⟩ rfl hN (by norm_num) (by norm_num)).2
  have habs : |1 - 2 * (199999 / 400000 : ℝ)| = 1 / 200000 := by
    rw [abs_of_nonneg (by norm_num)]; norm_num
  rw [habs] at hd
  refine ⟨⟨(norm_eq_one_iff _).mpr hN, by norm_num, by rw [hN]; norm_num,
    by rw [hd]; norm_num, ?_⟩, ?_, ?_⟩
  · have h0 : (Material.mk .DIFFUSE ⟨0, 0, 0⟩ 1 1 ⟨0.725, 0.71, 0.68⟩ ⟨0, 0, 0⟩ 0).pdf
        (1 / 100000) ⟨0, 0, 1⟩
        ((Material.mk .DIFFUSE ⟨0, 0, 0⟩ 1 1 ⟨0.725, 0.71, 0.68⟩ ⟨0, 0, 0⟩ 0).sample
          (199999 / 400000) 0 ⟨0, 0, 1⟩ ⟨0, 0, 1⟩) ⟨0, 0, 1⟩ = 0 := by
      unfold Material.pdf
      rw [if_pos (Or.inl (by rw [hd]; norm_num))]
    rw [h0]
    exact lt_irrefl 0
  · rw [microfacet_sample_head_on _ 0 rfl]
    norm_num [dotProduct]
  · rw [pdf_roughness_zero _ _ _ _ _ rfl rfl]
    exact lt_irrefl 0

/-! ## C10: refraction -/

/-- On `[-1, 1]` the clamp of `refract` and `fresnel` is the identity. -/
theorem clamp_unit_id (c : ℝ) (h0 : -1 ≤ c) (h1 : c ≤ 1) : clamp (-1) 1 c = c := by
  unfold clamp
  rw [min_eq_right h1, max_eq_right h0]

/-- The result of `refract` when the incident ray and the normal are on opposite sides. -/
theorem refract_outside (I N : Vector3f) (ior : ℝ) (hI : dotProduct I I = 1)
    (hN : dotProduct N N = 1) (hc : dotProduct I N < 0) :
    refract I N ior =
      if 1 - 1 / ior * (1 / ior) * (1 - -dotProduct I N * -dotProduct I N) < 0 then ⟨0, 0, 0⟩
      else (1 / ior) * I + (1 / ior * -dotProduct I N -
        Real.sqrt (1 - 1 / ior * (1 / ior) * (1 - -dotProduct I N * -dotProduct I N))) * N := by
  obtain ⟨h0, h1⟩ := dotProduct_unit_bounds I N hI hN
  simp only [refract, clamp_unit_id _ h0 h1, if_pos hc, splat]

/-- The result of `refract` when the incident ray and the normal are on the same side. -/
theorem refract_inside (I N : Vector3f) (ior : ℝ) (hI : dotProduct I I = 1)
    (hN : dotProduct N N = 1) (hc : ¬ dotProduct I N < 0) :
    refract I N ior =
      if 1 - ior / 1 * (ior / 1) * (1 - dotProduct I N * dotProduct I N) < 0 then ⟨0, 0, 0⟩
      else (ior / 1) * I + (ior / 1 * dotProduct I N -
        Real.sqrt (1 - ior / 1 * (ior / 1) * (1 - dotProduct I N * dotProduct I N))) * (-N) := by
  obtain ⟨h0, h1⟩ := dotProduct_unit_bounds I N hI hN
  simp only [refract, clamp_unit_id _ h0 h1, if_neg hc, splat]

/-- The transmitted vector `eta * I + g * N` with `g = -(eta * c) - s`, where
`c = dotProduct I N` and `s * s = 1 - eta^2 * (1 - c^2)`: unit length, tangential part
`eta` times that of `I`, normal part `-s`. -/
theorem snell_outside (I N : Vector3f) (eta s : ℝ) (hI : dotProduct I I = 1)
    (hN : dotProduct N N = 1)
    (hs : s * s = 1 - eta * eta * (1 - dotProduct I N * dotProduct I N)) :
    dotProduct (eta * I + (eta * -dotProduct I N - s) * N)
        (eta * I + (eta * -dotProduct I N - s) * N) = 1 ∧
    crossProduct N (eta * I + (eta * -dotProduct I N - s) * N) = eta * crossProduct N I ∧
    dotProduct (eta * I + (eta * -dotProduct I N - s) * N) N = -s := by
  unfold dotProduct at *
  refine ⟨?_, ?_, ?_⟩
  · simp only [add_x, add_y, add_z, smul_x, smul_y, smul_z]
    linear_combination hs + (eta * eta) * hI
      + ((eta * (I.x * N.x + I.y * N.y + I.z * N.z) + s) ^ 2) * hN
  · apply Vector3f.ext <;>
      simp only [crossProduct, add_x, add_y, add_z, smul_x, smul_y, smul_z] <;> ring
  · simp only [add_x, add_y, add_z, smul_x, smul_y, smul_z]
    linear_combination (-(eta * (I.x * N.x + I.y * N.y + I.z * N.z)) - s) * hN

/-- The transmitted vector `eta * I + g * (-N)` with `g = eta * c - s`, where
`c = dotProduct I N` and `s * s = 1 - eta^2 * (1 - c^2)`: unit length, tangential part
`eta` times that of `I`, normal part `s`. -/
theorem snell_inside (I N : Vector3f) (eta s : ℝ) (hI : dotProduct I I = 1)
    (hN : dotProduct N N = 1)
    (hs : s * s = 1 - eta * eta * (1 - dotProduct I N * dotProduct I N)) :
    dotProduct (eta * I + (eta * dotProduct I N - s) * (-N))
        (eta * I + (eta * dotProduct I N - s) * (-N)) = 1 ∧
    crossProduct N (eta * I + (eta * dotProduct I N - s) * (-N)) = eta * crossProduct N I ∧
    dotProduct (eta * I + (eta * dotProduct I N - s) * (-N)) N = s := by
  unfold dotProduct at *
  refine ⟨?_, ?_, ?_⟩
  · simp only [add_x, add_y, add_z, smul_x, smul_y, smul_z, neg_x, neg_y, neg_z]
    linear_combination hs + (eta * eta) * hI
      + ((eta * (I.x * N.x + I.y * N.y + I.z * N.z) - s) ^ 2) * hN
  · apply Vector3f.ext <;>
      simp only [crossProduct, add_x, add_y, add_z, smul_x, smul_y, smul_z,
        neg_x, neg_y, neg_z] <;> ring
  · simp only [add_x, add_y, add_z, smul_x, smul_y, smul_z, neg_x, neg_y, neg_z]
    linear_combination (-(eta * (I.x * N.x + I.y * N.y + I.z * N.z)) + s) * hN

/-- C10. For all unit `I` and `N` and every `ior > 0`, let `eta = 1 / ior` when
`dotProduct I N < 0` and `eta = ior` otherwise, and `k = 1 - eta^2 * (1 - (dotProduct I N)^2)`.
If `k < 0`, `refract I N ior` is the zero vector; otherwise the result `T` has unit norm,
`crossProduct N T = eta * crossProduct N I`, and `dotProduct T N` is `-sqrt k` when
`dotProduct I N < 0` and `sqrt k` otherwise. -/
theorem refract_snell (I N : Vector3f) (ior : ℝ) (_hior : 0 < ior)
    (hI : I.norm = 1) (hN : N.norm = 1) (eta k : ℝ)
    (heta : eta = if dotProduct I N < 0 then 1 / ior else ior)
    (hk : k = 1 - eta ^ 2 * (1 - dotProduct I N ^ 2)) :
    (k < 0 → refract I N ior = ⟨0, 0, 0⟩) ∧
    (¬ k < 0 →
      (refract I N ior).norm = 1 ∧
      crossProduct N (refract I N ior) = eta * crossProduct N I ∧
      dotProduct (refract I N ior) N =
        if dotProduct I N < 0 then -Real.sqrt k else Real.sqrt k) := by
  rw [norm_eq_one_iff] at hI hN
  by_cases hc : dotProduct I N < 0
  · rw [if_pos hc] at heta
    have hk2 : 1 - 1 / ior * (1 / ior) * (1 - -dotProduct I N * -dotProduct I N) = k := by
      rw [hk, heta]; ring
    rw [refract_outside I N ior hI hN hc, hk2, ← heta, if_pos hc]
    refine ⟨fun h => by rw [if_pos h], fun h => ?_⟩
    rw [if_neg h, norm_eq_one_iff]
    apply snell_outside I N eta (Real.sqrt k) hI hN
    rw [Real.mul_self_sqrt (not_lt.mp h), hk]; ring
  · rw [if_neg hc] at heta
    have hk2 : 1 - ior / 1 * (ior / 1) * (1 - dotProduct I N * dotProduct I N) = k := by
      rw [hk, heta]; ring
    rw [refract_inside I N ior hI hN hc, hk2, div_one, ← heta, if_neg hc]
    refine ⟨fun h => by rw [if_pos h], fun h => ?_⟩
    rw [if_neg h, norm_eq_one_iff]
    apply snell_inside I N eta (Real.sqrt k) hI hN
    rw [Real.mul_self_sqrt (not_lt.mp h), hk]; ring

/-- Refraction into glass (`ior = 3/2`) at normal incidence from outside, and total
internal reflection for a ray inside the glass at `4 : 3` to the normal. -/
theorem refract_snell_witness :
    ((refract ⟨0, 0, -1⟩ ⟨0, 0, 1⟩ (3 / 2)).norm = 1 ∧
      crossProduct ⟨0, 0, 1⟩ (refract ⟨0, 0, -1⟩ ⟨0, 0, 1⟩ (3 / 2)) =
        (2 / 3 : ℝ) * crossProduct ⟨0, 0, 1⟩ ⟨0, 0, -1⟩) ∧
    refract ⟨4 / 5, 0, 3 / 5⟩ ⟨0, 0, 1⟩ (3 / 2) = ⟨0, 0, 0⟩ :=
  ⟨⟨((refract_snell ⟨0, 0, -1⟩ ⟨0, 0, 1⟩ (3 / 2) (by norm_num)
        (by rw [norm_eq_one_iff]; norm_num [dotProduct])
        (by rw [norm_eq_one_iff]; norm_num [dotProduct]) (2 / 3) 1
        (by norm_num [dotProduct]) (by norm_num [dotProduct])).2 (by norm_num)).1,
      ((refract_snell ⟨0, 0, -1⟩ ⟨0, 0, 1⟩ (3 / 2) (by norm_num)
        (by rw [norm_eq_one_iff]; norm_num [dotProduct])
        (by rw [norm_eq_one_iff]; norm_num [dotProduct]) (2 / 3) 1
        (by norm_num [dotProduct]) (by norm_num [dotProduct])).2 (by norm_num)).2.1⟩,
    (refract_snell ⟨4 / 5, 0, 3 / 5⟩ ⟨0, 0, 1⟩ (3 / 2) (by norm_num)
      (by rw [norm_eq_one_iff]; norm_num [dotProduct])
      (by rw [norm_eq_one_iff]; norm_num [dotProduct]) (3 / 2) (-11 / 25)
      (by norm_num [dotProduct]) (by norm_num [dotProduct])).1 (by norm_num)⟩

/-! ## C9: the integral of the Diffuse density over the hemisphere -/

/-- The integral over the polar angle of a density that is the constant `c` where the
cosine is at least `E` and `0` elsewhere. -/
theorem guarded_sin_integral (E c : ℝ) (hE0 : 0 < E) (hE1 : E ≤ 1) :
    ∫ θ in (0 : ℝ)..(Real.pi / 2), (if Real.cos θ < E then 0 else c) * Real.sin θ
      = c * (1 - E) := by
  have ha0 : 0 ≤ Real.arccos E := Real.arccos_nonneg E
  have ha1 : Real.arccos E ≤ Real.pi / 2 := Real.arccos_le_pi_div_two.mpr hE0.le
  have hcos : Real.cos (Real.arccos E) = E := Real.cos_arccos (by linarith) hE1
  have hpi : 0 < Real.pi := Real.pi_pos
  have heq1 : ∀ x ∈ Set.uIoc (0 : ℝ) (Real.arccos E),
      (fun θ => c * Real.sin θ) x = (if Real.cos x < E then 0 else c) * Real.sin x := by
    intro x hx
    rw [Set.uIoc_of_le ha0] at hx
    have : E ≤ Real.cos x := by
      rw [← hcos]
      exact Real.cos_le_cos_of_nonneg_of_le_pi hx.1.le (by linarith) hx.2
    simp only [if_neg (not_lt.mpr this)]
  have heq2 : ∀ x ∈ Set.uIoc (Real.arccos E) (Real.pi / 2),
      (fun _ => (0 : ℝ)) x = (if Real.cos x < E then 0 else c) * Real.sin x := by
    intro x hx
    rw [Set.uIoc_of_le ha1] at hx
    have : Real.cos x < E := by
      rw [← hcos]
      exact Real.cos_lt_cos_of_nonneg_of_le_pi ha0 (by linarith [hx.2]) hx.1
    simp only [if_pos this, zero_mul]
  have hi1 : IntervalIntegrable
      (fun θ => (if Real.cos θ < E then 0 else c) * Real.sin θ) MeasureTheory.volume 0
      (Real.arccos E) :=
    ((Real.continuous_sin.const_smul c).intervalIntegrable 0 (Real.arccos E)).congr
      ((MeasureTheory.ae_restrict_iff' measurableSet_uIoc).mpr
        (Filter.Eventually.of_forall heq1))
  have hi2 : IntervalIntegrable
      (fun θ => (if Real.cos θ < E then 0 else c) * Real.sin θ) MeasureTheory.volume
      (Real.arccos E) (Real.pi / 2) :=
    (intervalIntegrable_const (c := (0 : ℝ))).congr
      ((MeasureTheory.ae_restrict_iff' measurableSet_uIoc).mpr
        (Filter.Eventually.of_forall heq2))
  rw [← intervalIntegral.integral_add_adjacent_intervals hi1 hi2]
  rw [intervalIntegral.integral_congr_ae
      (Filter.Eventually.of_forall fun x hx => (heq1 x hx).symm),
    intervalIntegral.integral_congr_ae
      (Filter.Eventually.of_forall fun x hx => (heq2 x hx).symm)]
  simp only [intervalIntegral.integral_const_mul, integral_sin, Real.cos_zero, hcos,
    intervalIntegral.integral_const, smul_zero, add_zero]

/-- The Diffuse density at the direction of polar angle `theta` and azimuth `phi` about
the unit normal `N`, for an incident direction that passes the guard. -/
theorem diffuse_pdf_spherical (EPSILON : ℝ) (m : Material) (wi N : Vector3f)
    (hm : m.m_type = MaterialType.DIFFUSE) (hN : dotProduct N N = 1)
    (hwiN : EPSILON ≤ dotProduct wi N) (theta phi : ℝ) :
    m.pdf EPSILON wi
      (toWorld ⟨Real.sin theta * Real.cos phi, Real.sin theta * Real.sin phi, Real.cos theta⟩
        N) N = if Real.cos theta < EPSILON then 0 else 0.5 / Real.pi := by
  unfold Material.pdf
  rw [(toWorld_dot _ N hN).2]
  by_cases h : Real.cos theta < EPSILON
  · rw [if_pos (Or.inl h), if_pos h]
  · have hg : ¬ (Real.cos theta < EPSILON ∨ dotProduct wi N < EPSILON) := by
      rw [not_or, not_lt, not_lt]; exact ⟨not_lt.mp h, hwiN⟩
    simp only [if_neg hg, if_neg h, hm, M_PI]

/-- The integral of the Diffuse density over the hemisphere about a unit normal, in
spherical coordinates, is `1 - EPSILON`. -/
theorem diffuse_pdf_hemisphere (EPSILON : ℝ) (hE0 : 0 < EPSILON) (hE1 : EPSILON ≤ 1)
    (m : Material) (wi N : Vector3f)
    (hm : m.m_type = MaterialType.DIFFUSE) (hN : dotProduct N N = 1)
    (hwiN : EPSILON ≤ dotProduct wi N) :
    ∫ phi in (0 : ℝ)..(2 * Real.pi), ∫ theta in (0 : ℝ)..(Real.pi / 2),
      m.pdf EPSILON wi
        (toWorld
          ⟨Real.sin theta * Real.cos phi, Real.sin theta * Real.sin phi, Real.cos theta⟩ N) N
        * Real.sin theta = 1 - EPSILON := by
  simp only [diffuse_pdf_spherical EPSILON m wi N hm hN hwiN,
    guarded_sin_integral EPSILON _ hE0 hE1, intervalIntegral.integral_const, smul_eq_mul]
  have hpi : Real.pi ≠ 0 := Real.pi_pos.ne.symm
  field_simp
  ring

/-- C9 (amended). With `EPSILON > 0`: for a Diffuse material, a unit normal `N` and a
unit `wi` with `dotProduct wi N >= EPSILON`, the integral of `pdf wi wo N` over the
directions `wo` of the hemisphere about `N` (in spherical coordinates about `N`: the
integral over `phi` in `[0, 2 pi]` and `theta` in `[0, pi / 2]` of `pdf * sin theta`)
equals `1 - EPSILON`: the density is `1 / (2 pi)` on the cap `dotProduct wo N >= EPSILON`
and `0` on the band `0 <= dotProduct wo N < EPSILON` cut off by the guard. -/
theorem diffuse_pdf_integral (EPSILON : ℝ) (hE : 0 < EPSILON) (m : Material)
    (wi N : Vector3f) (hm : m.m_type = MaterialType.DIFFUSE)
    (hN : N.norm = 1) (hwi : wi.norm = 1) (hwiN : EPSILON ≤ dotProduct wi N) :
    ∫ phi in (0 : ℝ)..(2 * Real.pi), ∫ theta in (0 : ℝ)..(Real.pi / 2),
      m.pdf EPSILON wi
        (toWorld
          ⟨Real.sin theta * Real.cos phi, Real.sin theta * Real.sin phi, Real.cos theta⟩ N) N
        * Real.sin theta = 1 - EPSILON := by
  rw [norm_eq_one_iff] at hN hwi
  have hE1 : EPSILON ≤ 1 := le_trans hwiN (dotProduct_unit_bounds wi N hwi hN).2
  exact diffuse_pdf_hemisphere EPSILON hE hE1 m wi N hm hN hwiN

/-- The white wall material seen head-on with `EPSILON = 1/100000`: the density
integrates to `1 - 1/100000` over the hemisphere. -/
theorem diffuse_pdf_integral_witness :
    ∫ phi in (0 : ℝ)..(2 * Real.pi), ∫ theta in (0 : ℝ)..(Real.pi / 2),
      (Material.mk .DIFFUSE ⟨0, 0, 0⟩ 1 1 ⟨0.725, 0.71, 0.68⟩ ⟨0, 0, 0⟩ 0).pdf (1 / 100000)
        ⟨0, 0, 1⟩
        (toWorld
          ⟨Real.sin theta * Real.cos phi, Real.sin theta * Real.sin phi, Real.cos theta⟩
          ⟨0, 0, 1⟩) ⟨0, 0, 1⟩
        * Real.sin theta = 1 - 1 / 100000 :=
  diffuse_pdf_integral (1 / 100000) (by norm_num)
    (Material.mk .DIFFUSE ⟨0, 0, 0⟩ 1 1 ⟨0.725, 0.71, 0.68⟩ ⟨0, 0, 0⟩ 0)
    ⟨0, 0, 1⟩ ⟨0, 0, 1⟩ rfl
    (by rw [norm_eq_one_iff]; norm_num [dotProduct])
    (by rw [norm_eq_one_iff]; norm_num [dotProduct])
    (by norm_num [dotProduct])

/-- C9 fails as stated: with `EPSILON = 1/100000`, the white wall material and
`N = wi = (0,0,1)` (unit vectors, `dotProduct wi N = 1 >= EPSILON`), the integral of the
density over the hemisphere is not `1`. -/
theorem diffuse_pdf_integral_counterexample :
    (⟨0, 0, 1⟩ : Vector3f).norm = 1 ∧
    (1 / 100000 : ℝ) ≤ dotProduct ⟨0, 0, 1⟩ ⟨0, 0, 1⟩ ∧
    (∫ phi in (0 : ℝ)..(2 * Real.pi), ∫ theta in (0 : ℝ)..(Real.pi / 2),
      (Material.mk .DIFFUSE ⟨0, 0, 0⟩ 1 1 ⟨0.725, 0.71, 0.68⟩ ⟨0, 0, 0⟩ 0).pdf (1 / 100000)
        ⟨0, 0, 1⟩
        (toWorld
          ⟨Real.sin theta * Real.cos phi, Real.sin theta * Real.sin phi, Real.cos theta⟩
          ⟨0, 0, 1⟩) ⟨0, 0, 1⟩
        * Real.sin theta) ≠ 1 := by
  have hN : dotProduct (⟨0, 0, 1⟩ : Vector3f) ⟨0, 0, 1⟩ = 1 := by norm_num [dotProduct]
  refine ⟨(norm_eq_one_iff _).mpr hN, by rw [hN]; norm_num, ?_⟩
  rw [diffuse_pdf_hemisphere (1 / 100000) (by norm_num) (by norm_num)
    (Material.mk .DIFFUSE ⟨0, 0, 0⟩ 1 1 ⟨0.725, 0.71, 0.68⟩ ⟨0, 0, 0⟩ 0)
    ⟨0, 0, 1⟩ ⟨0, 0, 1⟩ rfl hN (by rw [hN]; norm_num)]
  norm_num

/-! ## C11: the Fresnel boundary -/

/-- The clamped cosine of `refract` and `fresnel` lies in `[-1, 1]`. -/
theorem clamp_unit_bounds (c : ℝ) : -1 ≤ clamp (-1) 1 c ∧ clamp (-1) 1 c ≤ 1 := by
  unfold clamp
  exact ⟨le_max_left _ _, max_le (by norm_num) (min_le_left _ _)⟩

/-- For a cosine in `[-1, 1]` the `max` under the square root of `fresnel` is inactive. -/
theorem max_zero_one_sub_sq (c : ℝ) (h0 : -1 ≤ c) (h1 : c ≤ 1) :
    max 0 (1 - c * c) = 1 - c * c := by
  apply max_eq_right
  nlinarith

/-- C11. For every `ior > 1` and all unit `I`, `N` with `dotProduct I N > 0` (the ray
travels inside the dense medium): if the incidence angle exceeds the critical angle,
`sqrt (1 - (dotProduct I N)^2) > 1 / ior`, then `fresnel I N ior` sets `kr` to exactly `1`. -/
theorem fresnel_total_internal_reflection (I N : Vector3f) (ior : ℝ) (hior : 1 < ior)
    (hI : I.norm = 1) (hN : N.norm = 1) (hc : 0 < dotProduct I N)
    (hcrit : 1 / ior < Real.sqrt (1 - dotProduct I N ^ 2)) :
    fresnel I N ior = 1 := by
  rw [norm_eq_one_iff] at hI hN
  obtain ⟨h0, h1⟩ := dotProduct_unit_bounds I N hI hN
  have hpos : 0 < ior := by linarith
  have hs : ior / 1 * Real.sqrt (max 0 (1 - dotProduct I N * dotProduct I N)) ≥ 1 := by
    rw [max_zero_one_sub_sq _ h0 h1, div_one, ← sq]
    have h := mul_lt_mul_of_pos_left hcrit hpos
    rw [mul_one_div_cancel hpos.ne.symm] at h
    exact h.le
  simp only [fresnel, clamp_unit_id _ h0 h1, gt_iff_lt, if_pos hc]
  rw [if_pos hs]

/-- Glass (`ior = 3/2`), a ray inside it at `12 : 5` to the normal, close to grazing: the
sine of the incidence angle is `12/13 > 2/3`, and `kr` is `1`. -/
theorem fresnel_total_internal_reflection_witness :
    fresnel ⟨12 / 13, 0, 5 / 13⟩ ⟨0, 0, 1⟩ (3 / 2) = 1 :=
  fresnel_total_internal_reflection ⟨12 / 13, 0, 5 / 13⟩ ⟨0, 0, 1⟩ (3 / 2) (by norm_num)
    (by rw [norm_eq_one_iff]; norm_num [dotProduct])
    (by rw [norm_eq_one_iff]; norm_num [dotProduct])
    (by norm_num [dotProduct])
    (by rw [Real.lt_sqrt (by norm_num)]; norm_num [dotProduct])

/-! ## C19: the Fresnel reflectance is a fraction -/

/-- The square of `(A - B) / (A + B)` is at most `1` for non-negative `A`, `B` with a
positive sum. -/
theorem ratio_sq_le_one (A B : ℝ) (hA : 0 ≤ A) (hB : 0 ≤ B) (hAB : 0 < A + B) :
    (A - B) / (A + B) * ((A - B) / (A + B)) ≤ 1 := by
  rw [div_mul_div_comm, div_le_one (mul_pos hAB hAB)]
  nlinarith [mul_nonneg hA hB]

/-- The branch of `fresnel` without total internal reflection, for positive indices
`etai`, `etat` and a clamped cosine `c`: `cost` is strictly positive, both denominators
are strictly positive, and the reflectance lies in `[0, 1]`. -/
theorem fresnel_branch_props (etai etat c : ℝ) (hi : 0 < etai) (ht : 0 < etat)
    (hs : ¬ etai / etat * Real.sqrt (max 0 (1 - c * c)) ≥ 1) :
    0 < Real.sqrt (max 0 (1 - etai / etat * Real.sqrt (max 0 (1 - c * c)) *
        (etai / etat * Real.sqrt (max 0 (1 - c * c))))) ∧
    0 < etat * |c| + etai * Real.sqrt (max 0 (1 - etai / etat * Real.sqrt (max 0 (1 - c * c)) *
        (etai / etat * Real.sqrt (max 0 (1 - c * c))))) ∧
    0 < etai * |c| + etat * Real.sqrt (max 0 (1 - etai / etat * Real.sqrt (max 0 (1 - c * c)) *
        (etai / etat * Real.sqrt (max 0 (1 - c * c))))) ∧
    0 ≤ ((etat * |c| - etai * Real.sqrt (max 0 (1 - etai / etat * Real.sqrt (max 0 (1 - c * c)) *
            (etai / etat * Real.sqrt (max 0 (1 - c * c)))))) /
          (etat * |c| + etai * Real.sqrt (max 0 (1 - etai / etat *
            Real.sqrt (max 0 (1 - c * c)) * (etai / etat * Real.sqrt (max 0 (1 - c * c)))))) *
        ((etat * |c| - etai * Real.sqrt (max 0 (1 - etai / etat *
            Real.sqrt (max 0 (1 - c * c)) * (etai / etat * Real.sqrt (max 0 (1 - c * c)))))) /
          (etat * |c| + etai * Real.sqrt (max 0 (1 - etai / etat *
            Real.sqrt (max 0 (1 - c * c)) * (etai / etat * Real.sqrt (max 0 (1 - c * c))))))) +
        (etai * |c| - etat * Real.sqrt (max 0 (1 - etai / etat * Real.sqrt (max 0 (1 - c * c)) *
            (etai / etat * Real.sqrt (max 0 (1 - c * c)))))) /
          (etai * |c| + etat * Real.sqrt (max 0 (1 - etai / etat *
            Real.sqrt (max 0 (1 - c * c)) * (etai / etat * Real.sqrt (max 0 (1 - c * c)))))) *
        ((etai * |c| - etat * Real.sqrt (max 0 (1 - etai / etat *
            Real.sqrt (max 0 (1 - c * c)) * (etai / etat * Real.sqrt (max 0 (1 - c * c)))))) /
          (etai * |c| + etat * Real.sqrt (max 0 (1 - etai / etat *
            Real.sqrt (max 0 (1 - c * c)) * (etai / etat * Real.sqrt (max 0 (1 - c * c)))))))) / 2 ∧
    ((etat * |c| - etai * Real.sqrt (max 0 (1 - etai / etat * Real.sqrt (max 0 (1 - c * c)) *
            (etai / etat * Real.sqrt (max 0 (1 - c * c)))))) /
          (etat * |c| + etai * Real.sqrt (max 0 (1 - etai / etat *
            Real.sqrt (max 0 (1 - c * c)) * (etai / etat * Real.sqrt (max 0 (1 - c * c)))))) *
        ((etat * |c| - etai * Real.sqrt (max 0 (1 - etai / etat *
            Real.sqrt (max 0 (1 - c * c)) * (etai / etat * Real.sqrt (max 0 (1 - c * c)))))) /
          (etat * |c| + etai * Real.sqrt (max 0 (1 - etai / etat *
            Real.sqrt (max 0 (1 - c * c)) * (etai / etat * Real.sqrt (max 0 (1 - c * c))))))) +
        (etai * |c| - etat * Real.sqrt (max 0 (1 - etai / etat * Real.sqrt (max 0 (1 - c * c)) *
            (etai / etat * Real.sqrt (max 0 (1 - c * c)))))) /
          (etai * |c| + etat * Real.sqrt (max 0 (1 - etai / etat *
            Real.sqrt (max 0 (1 - c * c)) * (etai / etat * Real.sqrt (max 0 (1 - c * c)))))) *
        ((etai * |c| - etat * Real.sqrt (max 0 (1 - etai / etat *
            Real.sqrt (max 0 (1 - c * c)) * (etai / etat * Real.sqrt (max 0 (1 - c * c)))))) /
          (etai * |c| + etat * Real.sqrt (max 0 (1 - etai / etat *
            Real.sqrt (max 0 (1 - c * c)) * (etai / etat * Real.sqrt (max 0 (1 - c * c)))))))) / 2
      ≤ 1 := by
  have hS0 : 0 ≤ etai / etat * Real.sqrt (max 0 (1 - c * c)) :=
    mul_nonneg (div_pos hi ht).le (Real.sqrt_nonneg _)
  have hS1 := not_le.mp hs
  generalize etai / etat * Real.sqrt (max 0 (1 - c * c)) = S at hS0 hS1 hs ⊢
  have hcost : 0 < Real.sqrt (max 0 (1 - S * S)) := by
    apply Real.sqrt_pos.mpr
    apply lt_max_of_lt_right
    nlinarith
  generalize Real.sqrt (max 0 (1 - S * S)) = cost at hcost ⊢
  have hc0 : 0 ≤ |c| := abs_nonneg c
  generalize |c| = a at hc0 ⊢
  have hA1 : 0 ≤ etat * a := mul_nonneg ht.le hc0
  have hB1 : 0 < etai * cost := mul_pos hi hcost
  have hA2 : 0 ≤ etai * a := mul_nonneg hi.le hc0
  have hB2 : 0 < etat * cost := mul_pos ht hcost
  have hd1 : 0 < etat * a + etai * cost := by linarith
  have hd2 : 0 < etai * a + etat * cost := by linarith
  have h1 := ratio_sq_le_one _ _ hA1 hB1.le hd1
  have h2 := ratio_sq_le_one _ _ hA2 hB2.le hd2
  have h3 := mul_self_nonneg ((etat * a - etai * cost) / (etat * a + etai * cost))
  have h4 := mul_self_nonneg ((etai * a - etat * cost) / (etai * a + etat * cost))
  refine ⟨hcost, hd1, hd2, ?_, ?_⟩
  · linarith
  · linarith

/-- C19. For all vectors `I`, `N` and every `ior > 0`, `fresnel I N ior` sets `kr` to a
value in `[0, 1]` (so `1 - kr` is in `[0, 1]` too); and in the branch that is not total
internal reflection (`sint < 1`), both denominators `etat * cosi + etai * cost` and
`etai * cosi + etat * cost` are strictly positive. -/
theorem fresnel_fraction (I N : Vector3f) (ior : ℝ) (hior : 0 < ior) :
    (0 ≤ fresnel I N ior ∧ fresnel I N ior ≤ 1) ∧
    (0 ≤ 1 - fresnel I N ior ∧ 1 - fresnel I N ior ≤ 1) ∧
    (∀ etai etat sint cost : ℝ,
      (etai, etat) = (if clamp (-1) 1 (dotProduct I N) > 0 then (ior, 1) else (1, ior)) →
      sint = etai / etat * Real.sqrt (max 0 (1 - clamp (-1) 1 (dotProduct I N) *
        clamp (-1) 1 (dotProduct I N))) →
      ¬ sint ≥ 1 →
      cost = Real.sqrt (max 0 (1 - sint * sint)) →
      0 < etat * |clamp (-1) 1 (dotProduct I N)| + etai * cost ∧
      0 < etai * |clamp (-1) 1 (dotProduct I N)| + etat * cost) := by
  have hkr : 0 ≤ fresnel I N ior ∧ fresnel I N ior ≤ 1 := by
    unfold fresnel
    by_cases hc : clamp (-1) 1 (dotProduct I N) > 0
    · simp only [if_pos hc]
      split_ifs with hs
      · exact ⟨zero_le_one, le_refl 1⟩
      · exact (fresnel_branch_props ior 1 _ hior one_pos hs).2.2.2
    · simp only [if_neg hc]
      split_ifs with hs
      · exact ⟨zero_le_one, le_refl 1⟩
      · exact (fresnel_branch_props 1 ior _ one_pos hior hs).2.2.2
  refine ⟨hkr, ⟨by linarith [hkr.2], by linarith [hkr.1]⟩, ?_⟩
  intro etai etat sint cost he hsint hs hcost
  by_cases hc : clamp (-1) 1 (dotProduct I N) > 0
  · rw [if_pos hc, Prod.mk.injEq] at he
    obtain ⟨rfl, rfl⟩ := he
    subst hsint hcost
    obtain ⟨-, h1, h2, -⟩ := fresnel_branch_props etai 1 _ hior one_pos hs
    exact ⟨h1, h2⟩
  · rw [if_neg hc, Prod.mk.injEq] at he
    obtain ⟨rfl, rfl⟩ := he
    subst hsint hcost
    obtain ⟨-, h1, h2, -⟩ := fresnel_branch_props 1 etat _ one_pos hior hs
    exact ⟨h1, h2⟩

/-- Air to glass (`ior = 3/2`) at normal incidence: the reflectance is a fraction. -/
theorem fresnel_fraction_witness :
    0 ≤ fresnel ⟨0, 0, -1⟩ ⟨0, 0, 1⟩ (3 / 2) ∧ fresnel ⟨0, 0, -1⟩ ⟨0, 0, 1⟩ (3 / 2) ≤ 1 :=
  (fresnel_fraction ⟨0, 0, -1⟩ ⟨0, 0, 1⟩ (3 / 2) (by norm_num)).1

/-! ## C18: `refract` and `fresnel` on total internal reflection -/

/-- A unit vector is not the zero vector. -/
theorem unit_ne_zero (T : Vector3f) (hT : dotProduct T T = 1) : T ≠ ⟨0, 0, 0⟩ := by
  intro h
  rw [h] at hT
  norm_num [dotProduct] at hT

/-- If `1 - eta^2 * (1 - c^2) < 0` for `eta >= 0` and `c` in `[-1, 1]`, then
`eta * sqrt (max 0 (1 - c^2)) >= 1`: the test of `refract` implies the test of `fresnel`. -/
theorem sint_ge_one_of_k_neg (eta c : ℝ) (heta : 0 ≤ eta) (h0 : -1 ≤ c) (h1 : c ≤ 1)
    (hk : 1 - eta * eta * (1 - c * c) < 0) :
    eta * Real.sqrt (max 0 (1 - c * c)) ≥ 1 := by
  rw [max_zero_one_sub_sq c h0 h1]
  have hnn : 0 ≤ 1 - c * c := by nlinarith
  have hs := Real.mul_self_sqrt hnn
  have hs0 := Real.sqrt_nonneg (1 - c * c)
  generalize Real.sqrt (1 - c * c) = s at hs hs0
  by_contra hlt
  rw [ge_iff_le, not_le] at hlt
  have hes : 0 ≤ eta * s := mul_nonneg heta hs0
  have : eta * s * (eta * s) < 1 := by nlinarith
  have : eta * eta * (1 - c * c) < 1 := by rw [← hs]; nlinarith
  linarith

/-- At grazing incidence (`dotProduct I N = 0`) into a medium of index `ior > 1`,
`fresnel` takes the branch without total internal reflection, and `Rs = Rp = -1` there,
so `kr = 1`. -/
theorem fresnel_grazing (I N : Vector3f) (ior : ℝ) (hior : 1 < ior)
    (hc : dotProduct I N = 0) : fresnel I N ior = 1 := by
  have hpos : 0 < ior := by linarith
  have hcl : clamp (-1) 1 (0 : ℝ) = 0 := clamp_unit_id 0 (by norm_num) (by norm_num)
  have hsq : Real.sqrt (max 0 (1 - (0 : ℝ) * 0)) = 1 := by norm_num
  have hlt : ¬ 1 / ior * 1 ≥ 1 := by
    rw [mul_one, ge_iff_le, not_le, div_lt_one hpos]
    exact hior
  have hcost : 0 < Real.sqrt (max 0 (1 - 1 / ior * 1 * (1 / ior * 1))) := by
    apply Real.sqrt_pos.mpr
    apply lt_max_of_lt_right
    have h1 : 1 / ior < 1 := by rw [div_lt_one hpos]; exact hior
    have h2 : 0 < 1 / ior := one_div_pos.mpr hpos
    nlinarith
  simp only [fresnel, hc, hcl, gt_iff_lt, lt_irrefl, if_false, hsq, if_neg hlt, abs_zero]
  generalize Real.sqrt (max 0 (1 - 1 / ior * 1 * (1 / ior * 1))) = cost at hcost
  have hne : cost ≠ 0 := hcost.ne.symm
  have hne2 : ior ≠ 0 := hpos.ne.symm
  field_simp

/-- C18. For all unit `I`, `N` and every `ior > 0`: whenever `refract I N ior` returns the
zero vector, `fresnel I N ior` sets `kr = 1`.  This covers the grazing case
`dotProduct I N = 0`, where `refract` swaps the indices and `fresnel` does not. -/
theorem refract_zero_fresnel_one (I N : Vector3f) (ior : ℝ) (hior : 0 < ior)
    (hI : I.norm = 1) (hN : N.norm = 1) (h : refract I N ior = ⟨0, 0, 0⟩) :
    fresnel I N ior = 1 := by
  rw [norm_eq_one_iff] at hI hN
  obtain ⟨h0, h1⟩ := dotProduct_unit_bounds I N hI hN
  rcases lt_trichotomy (dotProduct I N) 0 with hc | hc | hc
  · rw [refract_outside I N ior hI hN hc] at h
    by_cases hk : 1 - 1 / ior * (1 / ior) * (1 - -dotProduct I N * -dotProduct I N) < 0
    · have hk2 : 1 - 1 / ior * (1 / ior) * (1 - dotProduct I N * dotProduct I N) < 0 := by
        rw [neg_mul_neg] at hk; exact hk
      have hs := sint_ge_one_of_k_neg (1 / ior) _ (one_div_pos.mpr hior).le h0 h1 hk2
      simp only [fresnel, clamp_unit_id _ h0 h1, gt_iff_lt, if_neg (not_lt.mpr hc.le)]
      rw [if_pos hs]
    · rw [if_neg hk] at h
      have hs : Real.sqrt (1 - 1 / ior * (1 / ior) *
          (1 - -dotProduct I N * -dotProduct I N)) *
          Real.sqrt (1 - 1 / ior * (1 / ior) * (1 - -dotProduct I N * -dotProduct I N)) =
          1 - 1 / ior * (1 / ior) * (1 - dotProduct I N * dotProduct I N) := by
        rw [Real.mul_self_sqrt (not_lt.mp hk), neg_mul_neg]
      exact absurd h (unit_ne_zero _ (snell_outside I N (1 / ior) _ hI hN hs).1)
  · have hnc : ¬ dotProduct I N < 0 := by rw [hc]; exact lt_irrefl 0
    rw [refract_inside I N ior hI hN hnc] at h
    by_cases hk : 1 - ior / 1 * (ior / 1) * (1 - dotProduct I N * dotProduct I N) < 0
    · have hior1 : 1 < ior := by
        rw [hc, div_one] at hk
        nlinarith
      exact fresnel_grazing I N ior hior1 hc
    · rw [if_neg hk] at h
      have hs := Real.mul_self_sqrt (not_lt.mp hk)
      exact absurd h (unit_ne_zero _ (snell_inside I N (ior / 1) _ hI hN hs).1)
  · have hnc : ¬ dotProduct I N < 0 := not_lt.mpr hc.le
    rw [refract_inside I N ior hI hN hnc] at h
    by_cases hk : 1 - ior / 1 * (ior / 1) * (1 - dotProduct I N * dotProduct I N) < 0
    · have hs := sint_ge_one_of_k_neg (ior / 1) _ (by rw [div_one]; exact hior.le) h0 h1 hk
      simp only [fresnel, clamp_unit_id _ h0 h1, gt_iff_lt, if_pos hc]
      rw [if_pos hs]
    · rw [if_neg hk] at h
      have hs := Real.mul_self_sqrt (not_lt.mp hk)
      exact absurd h (unit_ne_zero _ (snell_inside I N (ior / 1) _ hI hN hs).1)

/-- The grazing case for glass (`ior = 3/2`): `I = (1,0,0)` along the surface with normal
`(0,0,1)`; `refract` returns the zero vector and `fresnel` sets `kr = 1`. -/
theorem refract_zero_fresnel_one_witness :
    refract ⟨1, 0, 0⟩ ⟨0, 0, 1⟩ (3 / 2) = ⟨0, 0, 0⟩ ∧
    fresnel ⟨1, 0, 0⟩ ⟨0, 0, 1⟩ (3 / 2) = 1 := by
  have hI : dotProduct (⟨1, 0, 0⟩ : Vector3f) ⟨1, 0, 0⟩ = 1 := by norm_num [dotProduct]
  have hN : dotProduct (⟨0, 0, 1⟩ : Vector3f) ⟨0, 0, 1⟩ = 1 := by norm_num [dotProduct]
  have hr : refract ⟨1, 0, 0⟩ ⟨0, 0, 1⟩ (3 / 2) = ⟨0, 0, 0⟩ := by
    rw [refract_inside _ _ _ hI hN (by norm_num [dotProduct])]
    rw [if_pos (by norm_num [dotProduct])]
  exact ⟨hr, refract_zero_fresnel_one ⟨1, 0, 0⟩ ⟨0, 0, 1⟩ (3 / 2) (by norm_num)
    ((norm_eq_one_iff _).mpr hI) ((norm_eq_one_iff _).mpr hN) hr⟩

/-! ## C16: the epsilon floor of the GGX distribution -/

/-- For `alpha^2 <= 1` and `NoH^2 <= 1` the unfloored denominator of `D_GGX` is at least
`alpha^2`. -/
theorem ggx_denom_ge (alpha NoH : ℝ) (ha : alpha * alpha ≤ 1) (hn : NoH * NoH ≤ 1) :
    alpha * alpha ≤ (alpha * alpha - 1) * NoH * NoH + 1 := by
  nlinarith [mul_self_nonneg alpha, mul_self_nonneg NoH]

/-- When the floor is inactive, `D_GGX` is the unfloored GGX formula. -/
theorem D_GGX_unfloored (EPSILON alpha NoH : ℝ)
    (h : EPSILON ≤ (alpha * alpha - 1) * NoH * NoH + 1) :
    D_GGX EPSILON alpha NoH =
      alpha * alpha / (Real.pi * ((alpha * alpha - 1) * NoH * NoH + 1) *
        ((alpha * alpha - 1) * NoH * NoH + 1)) := by
  unfold D_GGX M_PI
  simp only [max_eq_right h]

/-- C16. With `EPSILON > 0`, for every real `alpha` and `NoH`: the denominator
`max EPSILON ((alpha^2 - 1) * NoH^2 + 1)` used by `D_GGX` is at least `EPSILON`, the
divisor `M_PI * denom * denom` is strictly positive, and
`0 <= D_GGX alpha NoH <= alpha^2 / (pi * EPSILON^2)`; and when `alpha` is in `(0,1]`,
`NoH` in `[0,1]` and `alpha^2 >= EPSILON`, the floor is inactive and `D_GGX alpha NoH`
is `alpha^2 / (pi * ((alpha^2 - 1) * NoH^2 + 1)^2)`. -/
theorem D_GGX_floor (EPSILON alpha NoH : ℝ) (hE : 0 < EPSILON) :
    EPSILON ≤ max EPSILON ((alpha * alpha - 1) * NoH * NoH + 1) ∧
    0 < M_PI * max EPSILON ((alpha * alpha - 1) * NoH * NoH + 1) *
      max EPSILON ((alpha * alpha - 1) * NoH * NoH + 1) ∧
    0 ≤ D_GGX EPSILON alpha NoH ∧
    D_GGX EPSILON alpha NoH ≤ alpha ^ 2 / (Real.pi * EPSILON ^ 2) ∧
    (0 < alpha → alpha ≤ 1 → 0 ≤ NoH → NoH ≤ 1 → EPSILON ≤ alpha ^ 2 →
      max EPSILON ((alpha * alpha - 1) * NoH * NoH + 1) =
        (alpha * alpha - 1) * NoH * NoH + 1 ∧
      D_GGX EPSILON alpha NoH =
        alpha ^ 2 / (Real.pi * ((alpha ^ 2 - 1) * NoH ^ 2 + 1) ^ 2)) := by
  have hd : EPSILON ≤ max EPSILON ((alpha * alpha - 1) * NoH * NoH + 1) := le_max_left _ _
  have hd0 : 0 < max EPSILON ((alpha * alpha - 1) * NoH * NoH + 1) := lt_of_lt_of_le hE hd
  have hpi : 0 < Real.pi := Real.pi_pos
  refine ⟨hd, ?_, D_GGX_nonneg _ _ _, ?_, ?_⟩
  · unfold M_PI
    exact mul_pos (mul_pos hpi hd0) hd0
  · unfold D_GGX M_PI
    simp only
    generalize max EPSILON ((alpha * alpha - 1) * NoH * NoH + 1) = d at hd hd0
    rw [← sq alpha, mul_assoc]
    apply div_le_div_of_nonneg_left (sq_nonneg alpha) (mul_pos hpi (pow_pos hE 2))
    apply mul_le_mul_of_nonneg_left _ hpi.le
    nlinarith
  · intro ha0 ha1 hn0 hn1 hEa
    have haa : alpha * alpha ≤ 1 := by nlinarith
    have hnn : NoH * NoH ≤ 1 := by nlinarith
    have hge := ggx_denom_ge alpha NoH haa hnn
    have hfl : EPSILON ≤ (alpha * alpha - 1) * NoH * NoH + 1 := by
      rw [sq] at hEa; linarith
    refine ⟨max_eq_right hfl, ?_⟩
    rw [D_GGX_unfloored EPSILON alpha NoH hfl]
    congr 1 <;> ring

/-- The distribution of the silver material (`alpha = 0.3^2 = 9/100`) at `NoH = 1` with
`EPSILON = 1/100000` is bounded by `alpha^2 / (pi * EPSILON^2)`. -/
theorem D_GGX_floor_witness :
    0 ≤ D_GGX (1 / 100000) (9 / 100) 1 ∧
    D_GGX (1 / 100000) (9 / 100) 1 ≤ (9 / 100 : ℝ) ^ 2 / (Real.pi * (1 / 100000 : ℝ) ^ 2) :=
  ⟨(D_GGX_floor (1 / 100000) (9 / 100) 1 (by norm_num)).2.2.1,
    (D_GGX_floor (1 / 100000) (9 / 100) 1 (by norm_num)).2.2.2.1⟩

/-! ## C17: the divisor of the Microfacet density -/

/-- The length of a vector in terms of `dotProduct`. -/
theorem norm_eq_sqrt_dot (v : Vector3f) : v.norm = Real.sqrt (dotProduct v v) := rfl

/-- The half-vector of two unit directions that pass the guard around a unit normal:
`dotProduct wo h` is half the length of `wo + wi`, which is at least `2 * EPSILON`. -/
theorem half_vector_divisor (EPSILON : ℝ) (hE : 0 < EPSILON) (wi wo N : Vector3f)
    (hwi : dotProduct wi wi = 1) (hwo : dotProduct wo wo = 1) (hN : dotProduct N N = 1)
    (hwoN : EPSILON ≤ dotProduct wo N) (hwiN : EPSILON ≤ dotProduct wi N) :
    0 < dotProduct (wo + wi) (wo + wi) ∧
    dotProduct (normalize (wo + wi)) (normalize (wo + wi)) = 1 ∧
    dotProduct wo (normalize (wo + wi)) = Real.sqrt (dotProduct (wo + wi) (wo + wi)) / 2 ∧
    2 * EPSILON ≤ Real.sqrt (dotProduct (wo + wi) (wo + wi)) := by
  obtain ⟨h1, hq⟩ := sum_dot_self_pos EPSILON hE wi wo N hwoN hwiN
  obtain ⟨c, hc, hn, hcv⟩ := normalize_eq_scale (wo + wi)
  have hcs := dotProduct_sq_le N (wo + wi)
  rw [hN, one_mul] at hcs
  have h2 : 2 * EPSILON ≤ dotProduct N (wo + wi) := by
    rw [dotProduct_add_right, dotProduct_comm N wo, dotProduct_comm N wi]
    linarith
  have h3 : dotProduct (wo + wi) (wo + wi) = 2 + 2 * dotProduct wo wi := by
    unfold dotProduct at hwi hwo ⊢
    simp only [add_x, add_y, add_z]
    linear_combination hwi + hwo
  have hsq := Real.mul_self_sqrt hq.le
  have hs0 : 0 < Real.sqrt (dotProduct (wo + wi) (wo + wi)) := Real.sqrt_pos.mpr hq
  have hcv2 := hcv hq
  refine ⟨hq, ?_, ?_, ?_⟩
  · rw [hn, dotProduct_scale, dotProduct_comm, dotProduct_scale, hcv2]
    generalize Real.sqrt (dotProduct (wo + wi) (wo + wi)) = n at hsq hs0
    rw [← hsq]
    field_simp
  · rw [hn, dotProduct_scale, dotProduct_add_right, hwo, hcv2]
    have h4 : 1 + dotProduct wo wi = dotProduct (wo + wi) (wo + wi) / 2 := by
      rw [h3]; ring
    rw [h4]
    generalize Real.sqrt (dotProduct (wo + wi) (wo + wi)) = n at hsq hs0
    rw [← hsq]
    field_simp
    ring
  · by_contra hlt
    rw [not_le] at hlt
    generalize Real.sqrt (dotProduct (wo + wi) (wo + wi)) = n at hsq hs0 hlt
    nlinarith

/-- C17. With `EPSILON > 0`, for all unit `wi`, `wo` and unit `N` with
`dotProduct wo N >= EPSILON` and `dotProduct wi N >= EPSILON`: `wi + wo` is not the zero
vector, `h = normalize (wo + wi)` (the same vector as `normalize (wi + wo)`) is a unit
vector, `dotProduct wo h` is `|wi + wo| / 2 >= EPSILON`, and the divisor
`4 * dotProduct wo h` of `pdf` is at least `4 * EPSILON`. -/
theorem pdf_divisor_floor (EPSILON : ℝ) (hE : 0 < EPSILON) (wi wo N : Vector3f)
    (hwi : wi.norm = 1) (hwo : wo.norm = 1) (hN : N.norm = 1)
    (hwoN : EPSILON ≤ dotProduct wo N) (hwiN : EPSILON ≤ dotProduct wi N) :
    wi + wo ≠ ⟨0, 0, 0⟩ ∧
    normalize (wo + wi) = normalize (wi + wo) ∧
    (normalize (wo + wi)).norm = 1 ∧
    dotProduct wo (normalize (wo + wi)) = (wi + wo).norm / 2 ∧
    EPSILON ≤ dotProduct wo (normalize (wo + wi)) ∧
    4 * EPSILON ≤ 4 * dotProduct wo (normalize (wo + wi)) := by
  rw [norm_eq_one_iff] at hwi hwo hN
  obtain ⟨hq, hu, hd, hge⟩ := half_vector_divisor EPSILON hE wi wo N hwi hwo hN hwoN hwiN
  refine ⟨?_, by rw [vadd_comm], (norm_eq_one_iff _).mpr hu, ?_, ?_, ?_⟩
  · intro h0
    rw [vadd_comm wo wi, h0] at hq
    norm_num [dotProduct] at hq
  · rw [hd, norm_eq_sqrt_dot, vadd_comm wi wo]
  · rw [hd]; linarith
  · rw [hd]; linarith

/-- The normal direction and a direction tilted by `3 : 4 : 5`, with
`EPSILON = 1/100000`: the divisor of the density is at least `4 * EPSILON`. -/
theorem pdf_divisor_floor_witness :
    4 * (1 / 100000 : ℝ) ≤
      4 * dotProduct ⟨3 / 5, 0, 4 / 5⟩ (normalize (⟨3 / 5, 0, 4 / 5⟩ + ⟨0, 0, 1⟩)) :=
  (pdf_divisor_floor (1 / 100000) (by norm_num) ⟨0, 0, 1⟩ ⟨3 / 5, 0, 4 / 5⟩ ⟨0, 0, 1⟩
    (by rw [norm_eq_one_iff]; norm_num [dotProduct])
    (by rw [norm_eq_one_iff]; norm_num [dotProduct])
    (by rw [norm_eq_one_iff]; norm_num [dotProduct])
    (by norm_num [dotProduct]) (by norm_num [dotProduct])).2.2.2.2.2

/-! ## C12: the half-vector round trip of Microfacet sampling -/

/-- Normalizing a positive multiple of a unit vector gives the unit vector back. -/
theorem normalize_pos_multiple (h : Vector3f) (hh : dotProduct h h = 1) (r : ℝ) (hr : 0 < r) :
    normalize (r * h) = h := by
  have hmag : dotProduct (r * h) (r * h) = r * r := by
    unfold dotProduct at hh ⊢
    simp only [smul_x, smul_y, smul_z]
    linear_combination (r * r) * hh
  obtain ⟨c, -, hn, hc⟩ := normalize_eq_scale (r * h)
  have hc2 := hc (by rw [hmag]; exact mul_pos hr hr)
  rw [hmag, Real.sqrt_mul_self hr.le] at hc2
  have hne : r ≠ 0 := hr.ne.symm
  rw [hn, hc2]
  apply Vector3f.ext <;> simp only [muls_x, muls_y, muls_z, smul_x, smul_y, smul_z] <;>
    field_simp

/-- The reflection `wo` of `-wi` about a unit vector `h`: `dotProduct wo h` is
`dotProduct wi h`, and `wi + wo` is `2 * dotProduct wi h` times `h`. -/
theorem reflect_neg_props (wi h : Vector3f) (hh : dotProduct h h = 1) :
    dotProduct (reflect (-wi) h) h = dotProduct wi h ∧
    wi + reflect (-wi) h = (2 * dotProduct wi h) * h := by
  unfold reflect
  unfold dotProduct at *
  constructor
  · simp only [sub_x, sub_y, sub_z, smul_x, smul_y, smul_z, neg_x, neg_y, neg_z]
    linear_combination (2 * (wi.x * h.x + wi.y * h.y + wi.z * h.z)) * hh
  · apply Vector3f.ext <;>
      simp only [add_x, add_y, add_z, sub_x, sub_y, sub_z, smul_x, smul_y, smul_z,
        neg_x, neg_y, neg_z] <;> ring

/-- The cosine of the polar angle drawn by the Microfacet sampler lies in `[0, 1]`. -/
theorem cos_arccos_sqrt_bounds (x : ℝ) :
    0 ≤ Real.cos (Real.arccos (Real.sqrt x)) ∧ Real.cos (Real.arccos (Real.sqrt x)) ≤ 1 := by
  refine ⟨?_, Real.cos_le_one _⟩
  apply Real.cos_nonneg_of_neg_pi_div_two_le_of_le
  · linarith [Real.arccos_nonneg (Real.sqrt x), Real.pi_pos]
  · exact Real.arccos_le_pi_div_two.mpr (Real.sqrt_nonneg x)

/-- The local ray of the Microfacet sampler has unit length. -/
theorem microfacet_localRay_unit (theta phi : ℝ) :
    dotProduct
      ⟨Real.sin theta * Real.cos phi, Real.sin theta * Real.sin phi, Real.cos theta⟩
      ⟨Real.sin theta * Real.cos phi, Real.sin theta * Real.sin phi, Real.cos theta⟩ = 1 := by
  simp only [dotProduct]
  linear_combination (Real.sin theta) ^ 2 * Real.sin_sq_add_cos_sq phi
    + Real.sin_sq_add_cos_sq theta

/-- C12. For a Microfacet material with roughness in `[0,1]`, every unit `N`, every unit
`wi` and all draws `e1`, `e2` in `[0,1)`: with `theta` the sampled polar angle and
`h = toWorld localRay N` the sampled half-vector, `sample wi N` is `reflect (-wi) h`,
`h` is a unit vector with `dotProduct h N = cos theta` in `[0,1]`, the returned `wo` is a
unit vector with `dotProduct wo h = dotProduct wi h`, and whenever `dotProduct wi h > 0`
the half-vector `normalize (wi + wo)` that `eval` recomputes (`normalize (wo + wi)` in
`pdf`) is exactly `h`. -/
theorem microfacet_half_vector_round_trip (m : Material) (e1 e2 : ℝ) (wi N : Vector3f)
    (hm : m.m_type = MaterialType.MICROFACET)
    (_hr : 0 ≤ m.roughness ∧ m.roughness ≤ 1)
    (hN : N.norm = 1) (hwi : wi.norm = 1)
    (_he1 : 0 ≤ e1 ∧ e1 < 1) (_he2 : 0 ≤ e2 ∧ e2 < 1)
    (theta : ℝ) (h : Vector3f)
    (htheta : theta = Real.arccos (Real.sqrt ((1 - e2) /
      (e2 * (m.roughness * m.roughness * (m.roughness * m.roughness) - 1) + 1))))
    (hh : h = toWorld ⟨Real.sin theta * Real.cos (2 * M_PI * e1),
      Real.sin theta * Real.sin (2 * M_PI * e1), Real.cos theta⟩ N) :
    m.sample e1 e2 wi N = reflect (-wi) h ∧
    h.norm = 1 ∧
    dotProduct h N = Real.cos theta ∧
    (0 ≤ Real.cos theta ∧ Real.cos theta ≤ 1) ∧
    (m.sample e1 e2 wi N).norm = 1 ∧
    dotProduct (m.sample e1 e2 wi N) h = dotProduct wi h ∧
    (0 < dotProduct wi h →
      normalize (wi + m.sample e1 e2 wi N) = h ∧
      normalize (m.sample e1 e2 wi N + wi) = h) := by
  rw [norm_eq_one_iff] at hN hwi
  have hs : m.sample e1 e2 wi N = reflect (-wi) h := by
    simp only [Material.sample, hm, hh, htheta]
  obtain ⟨hd1, hd2⟩ := toWorld_dot ⟨Real.sin theta * Real.cos (2 * M_PI * e1),
      Real.sin theta * Real.sin (2 * M_PI * e1), Real.cos theta⟩ N hN
  rw [← hh, microfacet_localRay_unit] at hd1
  rw [← hh] at hd2
  obtain ⟨hr1, hr2⟩ := reflect_neg_props wi h hd1
  have hcos : 0 ≤ Real.cos theta ∧ Real.cos theta ≤ 1 := by
    rw [htheta]; exact cos_arccos_sqrt_bounds _
  have hwo : dotProduct (reflect (-wi) h) (reflect (-wi) h) = 1 :=
    reflect_unit _ _ (by rw [neg_dot_self]; exact hwi) hd1
  rw [hs]
  refine ⟨rfl, (norm_eq_one_iff _).mpr hd1, hd2, hcos, (norm_eq_one_iff _).mpr hwo, hr1, ?_⟩
  intro hpos
  have hn : normalize (wi + reflect (-wi) h) = h := by
    rw [hr2]
    exact normalize_pos_multiple h hd1 _ (by linarith)
  exact ⟨hn, by rw [vadd_comm]; exact hn⟩

/-- The silver material (`roughness = 0.3`) seen head-on with both draws `0`: the sample
is a unit vector. -/
theorem microfacet_half_vector_round_trip_witness :
    ((Material.mk .MICROFACET ⟨0, 0, 0⟩ 1 0.3 ⟨0, 0, 0⟩ ⟨0.97, 0.96, 0.91⟩ 0).sample 0 0
      ⟨0, 0, 1⟩ ⟨0, 0, 1⟩).norm = 1 :=
  (microfacet_half_vector_round_trip
    (Material.mk .MICROFACET ⟨0, 0, 0⟩ 1 0.3 ⟨0, 0, 0⟩ ⟨0.97, 0.96, 0.91⟩ 0) 0 0
    ⟨0, 0, 1⟩ ⟨0, 0, 1⟩ rfl (by norm_num)
    (by rw [norm_eq_one_iff]; norm_num [dotProduct])
    (by rw [norm_eq_one_iff]; norm_num [dotProduct])
    (by norm_num) (by norm_num) _ _ rfl rfl).2.2.2.2.1

/-! ## C15: inverse-CDF sampling of the GGX distribution -/

/-- The unfloored denominator of `D_GGX` is strictly positive for `0 < alphaSq < 1`. -/
theorem ggx_denom_pos (a t : ℝ) (ha0 : 0 < a) (ha1 : a < 1) :
    0 < (a - 1) * Real.cos t * Real.cos t + 1 := by
  have h := Real.cos_sq_le_one t
  nlinarith [sq_nonneg (Real.cos t)]

/-- The cumulative distribution of the polar angle under the unfloored GGX density,
by the fundamental theorem of calculus. -/
theorem ggx_cdf_integral (a θ : ℝ) (ha0 : 0 < a) (ha1 : a < 1) :
    ∫ t in (0 : ℝ)..θ, 2 * a * Real.cos t * Real.sin t /
        (((a - 1) * Real.cos t * Real.cos t + 1) * ((a - 1) * Real.cos t * Real.cos t + 1))
      = a / (1 - a) * (1 / a - 1 / ((a - 1) * Real.cos θ * Real.cos θ + 1)) := by
  have hderiv : ∀ x ∈ Set.uIcc (0 : ℝ) θ,
      HasDerivAt (fun t => -(a / (1 - a)) * ((a - 1) * Real.cos t * Real.cos t + 1)⁻¹)
        (2 * a * Real.cos x * Real.sin x /
          (((a - 1) * Real.cos x * Real.cos x + 1) * ((a - 1) * Real.cos x * Real.cos x + 1)))
        x := by
    intro x _
    have hg0 := (ggx_denom_pos a x ha0 ha1).ne.symm
    have hcos := Real.hasDerivAt_cos x
    have hg := ((hcos.const_mul (a - 1)).mul hcos).add_const 1
    have hF := (hg.inv hg0).const_mul (-(a / (1 - a)))
    refine hF.congr_deriv ?_
    have h1a : (1 - a) ≠ 0 := by linarith
    field_simp
    ring
  have hcont : Continuous (fun t => 2 * a * Real.cos t * Real.sin t /
        (((a - 1) * Real.cos t * Real.cos t + 1) * ((a - 1) * Real.cos t * Real.cos t + 1))) := by
    apply Continuous.div (by fun_prop) (by fun_prop)
    intro t
    have := ggx_denom_pos a t ha0 ha1
    positivity
  rw [intervalIntegral.integral_eq_sub_of_hasDerivAt hderiv (hcont.intervalIntegrable 0 θ)]
  have hg0 := (ggx_denom_pos a θ ha0 ha1).ne.symm
  have h1a : (1 - a) ≠ 0 := by linarith
  have ha : a ≠ 0 := ha0.ne.symm
  simp only [Real.cos_zero]
  field_simp
  ring

/-- The integrand of the half-vector density, `2 pi D_GGX cos sin`, without the floor:
for `0 < EPSILON <= alphaSq <= 1` the floor of `D_GGX` is inactive at every angle. -/
theorem ggx_integrand_eq (EPSILON r : ℝ) (hE : 0 < EPSILON) (hlo : EPSILON ≤ r * r * (r * r))
    (hhi : r * r * (r * r) ≤ 1) (t : ℝ) :
    2 * Real.pi * D_GGX EPSILON (r * r) (Real.cos t) * Real.cos t * Real.sin t =
      2 * (r * r * (r * r)) * Real.cos t * Real.sin t /
        (((r * r * (r * r) - 1) * Real.cos t * Real.cos t + 1) *
          ((r * r * (r * r) - 1) * Real.cos t * Real.cos t + 1)) := by
  have hcc : Real.cos t * Real.cos t ≤ 1 := by
    have := Real.cos_sq_le_one t
    rw [sq] at this; exact this
  have hge := ggx_denom_ge (r * r) (Real.cos t) hhi hcc
  rw [D_GGX_unfloored EPSILON (r * r) (Real.cos t) (le_trans hlo hge)]
  have hpi : Real.pi ≠ 0 := Real.pi_pos.ne.symm
  have hg0 : (r * r * (r * r) - 1) * Real.cos t * Real.cos t + 1 ≠ 0 := by
    have : 0 < (r * r * (r * r) - 1) * Real.cos t * Real.cos t + 1 := by linarith
    exact this.ne.symm
  field_simp
  ring

/-- C15. With `EPSILON > 0`, for `alphaSq = roughness^4` (computed as
`roughness * roughness * (roughness * roughness)`) with `EPSILON <= alphaSq < 1` and every
draw `e2` in `[0,1)`: the denominator `e2 * (alphaSq - 1) + 1` is positive, the argument
`(1 - e2) / (e2 * (alphaSq - 1) + 1)` of the square root lies in `[0,1]`, and
`theta = acos (sqrt argument)` inverts the cumulative distribution of the half-vector
density: the integral over `t` in `[0, theta]` of
`2 pi * D_GGX (roughness^2) (cos t) * cos t * sin t` is `e2`; the integral over
`[0, pi / 2]` is `1`. -/
theorem ggx_inverse_cdf (EPSILON roughness alphaSq e2 : ℝ) (hE : 0 < EPSILON)
    (ha : alphaSq = roughness * roughness * (roughness * roughness))
    (hlo : EPSILON ≤ alphaSq) (hhi : alphaSq < 1) (he2 : 0 ≤ e2 ∧ e2 < 1) :
    0 < e2 * (alphaSq - 1) + 1 ∧
    (0 ≤ (1 - e2) / (e2 * (alphaSq - 1) + 1) ∧ (1 - e2) / (e2 * (alphaSq - 1) + 1) ≤ 1) ∧
    (∫ t in (0 : ℝ)..Real.arccos (Real.sqrt ((1 - e2) / (e2 * (alphaSq - 1) + 1))),
      2 * Real.pi * D_GGX EPSILON (roughness * roughness) (Real.cos t) * Real.cos t *
        Real.sin t) = e2 ∧
    (∫ t in (0 : ℝ)..(Real.pi / 2),
      2 * Real.pi * D_GGX EPSILON (roughness * roughness) (Real.cos t) * Real.cos t *
        Real.sin t) = 1 := by
  have ha0 : 0 < alphaSq := lt_of_lt_of_le hE hlo
  have hden : 0 < e2 * (alphaSq - 1) + 1 := by nlinarith [he2.1, he2.2]
  have harg0 : 0 ≤ (1 - e2) / (e2 * (alphaSq - 1) + 1) :=
    div_nonneg (by linarith [he2.2]) hden.le
  have harg1 : (1 - e2) / (e2 * (alphaSq - 1) + 1) ≤ 1 := by
    rw [div_le_one hden]
    nlinarith [he2.1]
  have hfun : (fun t => 2 * Real.pi * D_GGX EPSILON (roughness * roughness) (Real.cos t) *
      Real.cos t * Real.sin t) = fun t => 2 * alphaSq * Real.cos t * Real.sin t /
        (((alphaSq - 1) * Real.cos t * Real.cos t + 1) *
          ((alphaSq - 1) * Real.cos t * Real.cos t + 1)) := by
    funext t
    rw [ha]
    exact ggx_integrand_eq EPSILON roughness hE (ha ▸ hlo) (ha ▸ hhi.le) t
  have h1a : (1 - alphaSq) ≠ 0 := by linarith
  have hane : alphaSq ≠ 0 := ha0.ne.symm
  refine ⟨hden, ⟨harg0, harg1⟩, ?_, ?_⟩
  · rw [hfun, ggx_cdf_integral alphaSq _ ha0 hhi]
    have hs1 : Real.sqrt ((1 - e2) / (e2 * (alphaSq - 1) + 1)) ≤ 1 := by
      have h := Real.sqrt_le_sqrt harg1
      rw [Real.sqrt_one] at h
      exact h
    have hcos := Real.cos_arccos (by linarith [Real.sqrt_nonneg ((1 - e2) /
      (e2 * (alphaSq - 1) + 1))]) hs1
    have hdne : e2 * (alphaSq - 1) + 1 ≠ 0 := hden.ne.symm
    have hsimp : (alphaSq - 1) * ((1 - e2) / (e2 * (alphaSq - 1) + 1)) + 1 =
        alphaSq / (e2 * (alphaSq - 1) + 1) := by
      field_simp
      ring
    rw [mul_assoc, hcos, Real.mul_self_sqrt harg0, hsimp]
    field_simp
    ring
  · rw [hfun, ggx_cdf_integral alphaSq _ ha0 hhi, Real.cos_pi_div_two]
    field_simp

/-- The silver material (`roughness = 3/10`, `alphaSq = 81/10000`) with
`EPSILON = 1/100000` and the draw `e2 = 1/2`: the cumulative distribution at the sampled
angle is `1/2`. -/
theorem ggx_inverse_cdf_witness :
    (∫ t in (0 : ℝ)..Real.arccos (Real.sqrt ((1 - 1 / 2) /
        (1 / 2 * ((81 / 10000 : ℝ) - 1) + 1))),
      2 * Real.pi * D_GGX (1 / 100000) (3 / 10 * (3 / 10)) (Real.cos t) * Real.cos t *
        Real.sin t) = 1 / 2 :=
  (ggx_inverse_cdf (1 / 100000) (3 / 10) (81 / 10000) (1 / 2) (by norm_num) (by norm_num)
    (by norm_num) (by norm_num) (by norm_num)).2.2.1

/-! ## C13: de Casteljau's algorithm -/

/-- The recurrence behind de Casteljau's algorithm: the Bernstein sum of degree `n + 1`
over `f` is the Bernstein sum of degree `n` over the interpolated values
`a * f i + b * f (i + 1)` (Pascal's rule). -/
theorem bernstein_rec (a b : ℝ) (f : ℕ → ℝ) (n : ℕ) :
    ∑ i in Finset.range (n + 2), (Nat.choose (n + 1) i : ℝ) * a ^ (n + 1 - i) * b ^ i * f i =
    ∑ i in Finset.range (n + 1),
      (Nat.choose n i : ℝ) * a ^ (n - i) * b ^ i * (a * f i + b * f (i + 1)) := by
  have h1 : ∑ i in Finset.range (n + 1),
      (Nat.choose n i : ℝ) * a ^ (n - i) * b ^ i * (a * f i + b * f (i + 1)) =
      ∑ i in Finset.range (n + 1), (Nat.choose n i : ℝ) * a ^ (n + 1 - i) * b ^ i * f i +
      ∑ i in Finset.range (n + 1), (Nat.choose n i : ℝ) * a ^ (n - i) * b ^ (i + 1) * f (i + 1) := by
    rw [← Finset.sum_add_distrib]
    apply Finset.sum_congr rfl
    intro i hi
    have hi2 : i ≤ n := Nat.lt_succ_iff.mp (Finset.mem_range.mp hi)
    have : n + 1 - i = (n - i) + 1 := by omega
    rw [this, pow_succ, pow_succ]
    ring
  rw [h1, Finset.sum_range_succ' _ (n + 1)]
  have h2 : ∑ i in Finset.range (n + 1),
      (Nat.choose (n + 1) (i + 1) : ℝ) * a ^ (n + 1 - (i + 1)) * b ^ (i + 1) * f (i + 1) =
      ∑ i in Finset.range (n + 1), (Nat.choose n i : ℝ) * a ^ (n - i) * b ^ (i + 1) * f (i + 1) +
      ∑ i in Finset.range (n + 1),
        (Nat.choose n (i + 1) : ℝ) * a ^ (n - i) * b ^ (i + 1) * f (i + 1) := by
    rw [← Finset.sum_add_distrib]
    apply Finset.sum_congr rfl
    intro i _
    rw [Nat.choose_succ_succ, Nat.succ_sub_succ]
    push_cast
    ring
  have h3 : ∑ i in Finset.range (n + 1), (Nat.choose n i : ℝ) * a ^ (n + 1 - i) * b ^ i * f i =
      ∑ i in Finset.range (n + 1),
        (Nat.choose n (i + 1) : ℝ) * a ^ (n - i) * b ^ (i + 1) * f (i + 1) +
      (Nat.choose (n + 1) 0 : ℝ) * a ^ (n + 1 - 0) * b ^ 0 * f 0 := by
    rw [Finset.sum_range_succ' _ n, Finset.sum_range_succ _ n]
    simp only [Nat.choose_succ_self, Nat.cast_zero, zero_mul, add_zero, Nat.choose_zero_right]
    congr 1
    apply Finset.sum_congr rfl
    intro i _
    rw [Nat.succ_sub_succ]
  rw [h2, h3]
  ring

/-- One pass of the inner loop shortens the list by one point. -/
theorem bezierPass_length (t : ℝ) (ps : List Point2f) :
    (bezierPass t ps).length = ps.length - 1 := by
  simp only [bezierPass, List.length_zipWith, List.length_tail]
  omega

/-- A coordinate of entry `i` of `temp` after one pass is the interpolation of the
coordinates of `points[i]` and `points[i + 1]`. -/
theorem bezierPass_getD (t : ℝ) (c : Point2f → ℝ)
    (hc : ∀ p q : Point2f,
      c ⟨(1 - t) * p.x + t * q.x, (1 - t) * p.y + t * q.y⟩ = (1 - t) * c p + t * c q)
    (ps : List Point2f) (i : ℕ) (hi : i + 1 < ps.length) :
    ((bezierPass t ps).map c).getD i 0 =
      (1 - t) * (ps.map c).getD i 0 + t * (ps.map c).getD (i + 1) 0 := by
  have h1 : i < ps.length := by omega
  simp only [bezierPass, List.getD_eq_getElem?_getD, List.getElem?_map, List.getElem?_zipWith,
    List.getElem?_tail, List.getElem?_eq_getElem h1, List.getElem?_eq_getElem hi,
    Option.map_some', Option.getD_some, hc]

/-- One pass of the inner loop leaves the Bernstein sum of a coordinate unchanged. -/
theorem bernsteinSum_pass (t : ℝ) (c : Point2f → ℝ)
    (hc : ∀ p q : Point2f,
      c ⟨(1 - t) * p.x + t * q.x, (1 - t) * p.y + t * q.y⟩ = (1 - t) * c p + t * c q)
    (ps : List Point2f) (n : ℕ) (hn : ps.length = n + 2) :
    bernsteinSum t ((bezierPass t ps).map c) = bernsteinSum t (ps.map c) := by
  unfold bernsteinSum
  simp only [List.length_map, bezierPass_length, hn, Nat.add_sub_cancel]
  have h2 : n + 2 - 1 = n + 1 := by omega
  rw [h2, Nat.add_sub_cancel, bernstein_rec (1 - t) t (fun i => (ps.map c).getD i 0) n]
  apply Finset.sum_congr rfl
  intro i hi
  rw [bezierPass_getD t c hc ps i (by have := Finset.mem_range.mp hi; omega)]

/-- The `while` loop of `recursive_bezier` ends with the single point of the Bernstein
form. -/
theorem recursive_bezier_loop_eq (t : ℝ) (n : ℕ) :
    ∀ ps : List Point2f, ps.length = n + 1 →
      recursive_bezier_loop t ps = [bernstein_bezier ps t] := by
  induction n with
  | zero =>
    intro ps hn
    match ps, hn with
    | [p], _ =>
      rw [recursive_bezier_loop]
      simp [bernstein_bezier, bernsteinSum]
  | succ n ih =>
    intro ps hn
    rw [recursive_bezier_loop, if_pos (by omega),
      ih (bezierPass t ps) (by rw [bezierPass_length]; omega)]
    simp only [bernstein_bezier]
    rw [bernsteinSum_pass t (fun p => p.x) (fun _ _ => rfl) ps n hn,
      bernsteinSum_pass t (fun p => p.y) (fun _ _ => rfl) ps n hn]

/-- At `t = 0` the Bernstein sum is the first coordinate. -/
theorem bernsteinSum_zero (cs : List ℝ) (h : cs ≠ []) : bernsteinSum 0 cs = cs.getD 0 0 := by
  unfold bernsteinSum
  have hlen : 0 < cs.length := List.length_pos.mpr h
  rw [Finset.sum_eq_single 0]
  · simp
  · intro i _ hi
    simp [zero_pow hi]
  · intro h0
    exact absurd (Finset.mem_range.mpr hlen) h0

/-- At `t = 1` the Bernstein sum is the last coordinate. -/
theorem bernsteinSum_one (cs : List ℝ) (h : cs ≠ []) :
    bernsteinSum 1 cs = cs.getD (cs.length - 1) 0 := by
  unfold bernsteinSum
  have hlen : 0 < cs.length := List.length_pos.mpr h
  rw [Finset.sum_eq_single (cs.length - 1)]
  · simp
  · intro i hi hne
    have : cs.length - 1 - i ≠ 0 := by
      have := Finset.mem_range.mp hi
      omega
    simp [zero_pow this]
  · intro h0
    exact absurd (Finset.mem_range.mpr (by omega)) h0

/-- For four control points the Bernstein form is the cubic of `naive_bezier`. -/
theorem bernstein_bezier_cubic (p_0 p_1 p_2 p_3 : Point2f) (t : ℝ) :
    bernstein_bezier [p_0, p_1, p_2, p_3] t =
      ((1 - t) ^ 3 : ℝ) * p_0 + (3 * t * (1 - t) ^ 2 : ℝ) * p_1 +
      (3 * t ^ 2 * (1 - t) : ℝ) * p_2 + (t ^ 3 : ℝ) * p_3 := by
  have hx : ∀ a b : Point2f, (a + b).x = a.x + b.x := fun _ _ => rfl
  have hy : ∀ a b : Point2f, (a + b).y = a.y + b.y := fun _ _ => rfl
  have hmx : ∀ (r : ℝ) (a : Point2f), (r * a).x = a.x * r := fun _ _ => rfl
  have hmy : ∀ (r : ℝ) (a : Point2f), (r * a).y = a.y * r := fun _ _ => rfl
  apply Point2f.ext
  · simp [bernstein_bezier, bernsteinSum, Finset.sum_range_succ, Nat.choose, hx, hmx]
    ring
  · simp [bernstein_bezier, bernsteinSum, Finset.sum_range_succ, Nat.choose, hy, hmy]
    ring

/-- C13. For every non-empty list of control points `p_0 .. p_n` and every real `t`,
`recursive_bezier` returns a point (the loop is a total function: every pass shortens the
list by one point), and that point is the Bernstein form, the sum over `i` of
`C(n,i) * (1-t)^(n-i) * t^i * p_i`; for four control points it is the cubic that
`naive_bezier` computes; it is `p_0` at `t = 0` and `p_n` at `t = 1`. -/
theorem recursive_bezier_bernstein (control_points : List Point2f) (t : ℝ)
    (hne : control_points ≠ []) :
    recursive_bezier control_points t = some (bernstein_bezier control_points t) ∧
    (∀ p_0 p_1 p_2 p_3 : Point2f, control_points = [p_0, p_1, p_2, p_3] →
      recursive_bezier control_points t = naive_bezier_point control_points t ∧
      recursive_bezier control_points t =
        some (((1 - t) ^ 3 : ℝ) * p_0 + (3 * t * (1 - t) ^ 2 : ℝ) * p_1 +
          (3 * t ^ 2 * (1 - t) : ℝ) * p_2 + (t ^ 3 : ℝ) * p_3)) ∧
    (t = 0 → recursive_bezier control_points t = control_points.head?) ∧
    (t = 1 → recursive_bezier control_points t = control_points.getLast?) := by
  have hlen : 0 < control_points.length := List.length_pos.mpr hne
  have hb : recursive_bezier control_points t = some (bernstein_bezier control_points t) := by
    unfold recursive_bezier
    rw [recursive_bezier_loop_eq t (control_points.length - 1) control_points (by omega)]
    rfl
  refine ⟨hb, ?_, ?_, ?_⟩
  · intro p_0 p_1 p_2 p_3 h
    rw [hb, h, bernstein_bezier_cubic]
    exact ⟨rfl, rfl⟩
  · intro ht
    rw [hb, ht]
    unfold bernstein_bezier
    rw [bernsteinSum_zero _ (by simpa using hne), bernsteinSum_zero _ (by simpa using hne)]
    cases control_points with
    | nil => exact absurd rfl hne
    | cons p ps => simp
  · intro ht
    rw [hb, ht]
    unfold bernstein_bezier
    rw [bernsteinSum_one _ (by simpa using hne), bernsteinSum_one _ (by simpa using hne),
      List.getLast?_eq_getElem?]
    simp only [List.length_map, List.getD_eq_getElem?_getD, List.getElem?_map,
      List.getElem?_eq_getElem (show control_points.length - 1 < control_points.length by omega),
      Option.map_some', Option.getD_some]

/-- Four control points and `t = 1/2`: `recursive_bezier` returns the point that
`naive_bezier` computes. -/
theorem recursive_bezier_bernstein_witness :
    recursive_bezier [⟨0, 0⟩, ⟨1, 2⟩, ⟨3, 2⟩, ⟨4, 0⟩] (1 / 2) =
      naive_bezier_point [⟨0, 0⟩, ⟨1, 2⟩, ⟨3, 2⟩, ⟨4, 0⟩] (1 / 2) :=
  ((recursive_bezier_bernstein [⟨0, 0⟩, ⟨1, 2⟩, ⟨3, 2⟩, ⟨4, 0⟩] (1 / 2)
    (List.cons_ne_nil _ _)).2.1 _ _ _ _ rfl).1

/-! ## C20: pinned masses and the force accumulators -/

/-- Adding a force to a mass changes no quantity that does not depend on `forces`. -/
theorem addForce_map {α : Type} (F : Mass → α)
    (hF : ∀ (m : Mass) (f : Vector2D), F { m with forces := f } = F m)
    (ms : List Mass) (i : ℕ) (f : Vector2D) : (addForce ms i f).map F = ms.map F := by
  unfold addForce
  split
  · rename_i m hm
    apply List.ext_getElem?
    intro n
    by_cases hn : i = n
    · subst hn
      have hi : i < ms.length := by
        by_contra hlt
        rw [List.getElem?_eq_none (not_lt.mp hlt)] at hm
        exact Option.noConfusion hm
      simp only [List.getElem?_map, List.getElem?_set_self hi, hm, Option.map_some', hF]
    · simp only [List.getElem?_map, List.getElem?_set_ne hn]
  · rfl

/-- The body of the loop over the springs changes `forces` only. -/
theorem applySpring_map {α : Type} (F : Mass → α)
    (hF : ∀ (m : Mass) (f : Vector2D), F { m with forces := f } = F m)
    (ms : List Mass) (s : Spring) : (applySpring ms s).map F = ms.map F := by
  unfold applySpring
  split
  · simp only [addForce_map F hF]
  · rfl

/-- The loop over the springs changes `forces` only. -/
theorem springLoop_map {α : Type} (F : Mass → α)
    (hF : ∀ (m : Mass) (f : Vector2D), F { m with forces := f } = F m)
    (springs : List Spring) :
    ∀ ms : List Mass, (springs.foldl applySpring ms).map F = ms.map F := by
  induction springs with
  | nil => intro ms; rfl
  | cons s rest ih =>
    intro ms
    rw [List.foldl_cons, ih, applySpring_map F hF]

/-- The body of the mass loop of `simulateEuler` clears `forces` and does not move a pinned
mass. -/
theorem eulerStep_props (delta_t : ℝ) (gravity : Vector2D) (m : Mass) :
    (eulerStep delta_t gravity m).forces = ⟨0, 0⟩ ∧
    (m.pinned = true →
      (eulerStep delta_t gravity m).position = m.position ∧
      (eulerStep delta_t gravity m).velocity = m.velocity ∧
      (eulerStep delta_t gravity m).last_position = m.last_position) := by
  refine ⟨rfl, fun hp => ?_⟩
  simp [eulerStep, hp]

/-- The body of the mass loop of `simulateVerlet` clears `forces` and does not move a
pinned mass. -/
theorem verletStep_props (delta_t : ℝ) (gravity : Vector2D) (m : Mass) :
    (verletStep delta_t gravity m).forces = ⟨0, 0⟩ ∧
    (m.pinned = true →
      (verletStep delta_t gravity m).position = m.position ∧
      (verletStep delta_t gravity m).velocity = m.velocity ∧
      (verletStep delta_t gravity m).last_position = m.last_position) := by
  refine ⟨rfl, fun hp => ?_⟩
  simp [verletStep, hp]

/-- After the loop over the springs and a loop over the masses with body `step`, every
mass of the rope is `step` of a mass that differs from the original one in `forces` only. -/
theorem simulate_masses (step : Mass → Mass) (springs : List Spring) (ms : List Mass)
    (i : ℕ) (m : Mass) (hm : ms[i]? = some m) :
    ∃ m2 : Mass, ((springs.foldl applySpring ms).map step)[i]? = some (step m2) ∧
      m2.pinned = m.pinned ∧ m2.position = m.position ∧ m2.velocity = m.velocity ∧
      m2.last_position = m.last_position := by
  have h := springLoop_map
    (fun m : Mass => (m.pinned, m.position, m.velocity, m.last_position))
    (fun _ _ => rfl) springs ms
  have h2 := congrArg (fun l => l[i]?) h
  simp only [List.getElem?_map, hm, Option.map_some'] at h2
  cases hq : (springs.foldl applySpring ms)[i]? with
  | none => rw [hq] at h2; exact Option.noConfusion h2
  | some m2 =>
    rw [hq, Option.map_some', Option.some.injEq, Prod.mk.injEq, Prod.mk.injEq,
      Prod.mk.injEq] at h2
    exact ⟨m2, by rw [List.getElem?_map, hq, Option.map_some'], h2.1, h2.2.1, h2.2.2.1, h2.2.2.2⟩

/-- C20. For every rope state, every `delta_t` and every `gravity`, and every mass
`masses[i]` of the rope: after one call of `simulateEuler`, and after one call of
`simulateVerlet`, the mass at index `i` has `forces = (0, 0)`, and when the mass is pinned
its `position`, `velocity` and `last_position` are unchanged. -/
theorem pinned_fixed_forces_cleared (r : Rope) (delta_t : ℝ) (gravity : Vector2D)
    (i : ℕ) (m : Mass) (hm : r.masses[i]? = some m) :
    (∃ m' : Mass, (r.simulateEuler delta_t gravity).masses[i]? = some m' ∧
      m'.forces = ⟨0, 0⟩ ∧
      (m.pinned = true →
        m'.position = m.position ∧ m'.velocity = m.velocity ∧
        m'.last_position = m.last_position)) ∧
    (∃ m' : Mass, (r.simulateVerlet delta_t gravity).masses[i]? = some m' ∧
      m'.forces = ⟨0, 0⟩ ∧
      (m.pinned = true →
        m'.position = m.position ∧ m'.velocity = m.velocity ∧
        m'.last_position = m.last_position)) := by
  constructor
  · obtain ⟨m2, h1, hp, hpos, hvel, hlast⟩ :=
      simulate_masses (eulerStep delta_t gravity) r.springs r.masses i m hm
    obtain ⟨hf, hfix⟩ := eulerStep_props delta_t gravity m2
    refine ⟨eulerStep delta_t gravity m2, h1, hf, fun hpin => ?_⟩
    obtain ⟨a, b, c⟩ := hfix (hp.trans hpin)
    exact ⟨a.trans hpos, b.trans hvel, c.trans hlast⟩
  · obtain ⟨m2, h1, hp, hpos, hvel, hlast⟩ :=
      simulate_masses (verletStep delta_t gravity) r.springs r.masses i m hm
    obtain ⟨hf, hfix⟩ := verletStep_props delta_t gravity m2
    refine ⟨verletStep delta_t gravity m2, h1, hf, fun hpin => ?_⟩
    obtain ⟨a, b, c⟩ := hfix (hp.trans hpin)
    exact ⟨a.trans hpos, b.trans hvel, c.trans hlast⟩


/-! ## C14: the constructor of the rope -/

/-- Adding `0` times a vector changes nothing. -/
theorem v2_add_zero_mul (a b : Vector2D) : a + ((0 : ℕ) : ℝ) * b = a := by
  apply Vector2D.ext
  · show a.x + ((0 : ℕ) : ℝ) * b.x = a.x
    simp
  · show a.y + ((0 : ℕ) : ℝ) * b.y = a.y
    simp

/-- After `j` passes the constructor holds `j + 1` masses and `j` springs. -/
theorem build_length (start length : Vector2D) (node_mass k : ℝ) (j : ℕ) :
    (Rope.build start length node_mass k j).1.length = j + 1 ∧
    (Rope.build start length node_mass k j).2.length = j := by
  induction j with
  | zero => exact ⟨rfl, rfl⟩
  | succ j ih =>
    simp only [Rope.build, List.length_append, List.length_singleton, ih.1, ih.2, and_self]

/-- After `j` passes, mass `i` is the unpinned mass `node_mass` at `start + i * length`. -/
theorem build_masses (start length : Vector2D) (node_mass k : ℝ) (j : ℕ) :
    ∀ i : ℕ, i ≤ j → (Rope.build start length node_mass k j).1[i]? =
      some (Mass.new (start + ((i : ℕ) : ℝ) * length) node_mass false) := by
  induction j with
  | zero =>
    intro i hi
    have : i = 0 := by omega
    subst this
    simp only [Rope.build, v2_add_zero_mul]
    rfl
  | succ j ih =>
    intro i hi
    have hlen := (build_length start length node_mass k j).1
    simp only [Rope.build]
    by_cases h : i ≤ j
    · rw [List.getElem?_append_left (by omega), ih i h]
    · have : i = j + 1 := by omega
      subst this
      rw [List.getElem?_append_right (by omega), hlen]
      simp

/-- The spring built from `masses[a]`, `masses[b]` and `k` joins `a` and `b` with
stiffness `k`. -/
theorem Spring_new_props (masses : List Mass) (a b : ℕ) (k : ℝ) :
    (Spring.new masses a b k).m1 = a ∧ (Spring.new masses a b k).m2 = b ∧
    (Spring.new masses a b k).k = k := by
  unfold Spring.new
  split <;> exact ⟨rfl, rfl, rfl⟩

/-- After `j` passes, spring `i` joins mass `i` and mass `i + 1` with stiffness `k`. -/
theorem build_springs (start length : Vector2D) (node_mass k : ℝ) (j : ℕ) :
    ∀ i : ℕ, i < j → ∃ s : Spring,
      (Rope.build start length node_mass k j).2[i]? = some s ∧
      s.m1 = i ∧ s.m2 = i + 1 ∧ s.k = k := by
  induction j with
  | zero => intro i hi; omega
  | succ j ih =>
    intro i hi
    have hlen := (build_length start length node_mass k j).2
    simp only [Rope.build]
    by_cases h : i < j
    · obtain ⟨s, hs, h1, h2, h3⟩ := ih i h
      exact ⟨s, by rw [List.getElem?_append_left (by omega), hs], h1, h2, h3⟩
    · have : i = j := by omega
      subst this
      have hp := Spring_new_props
        ((Rope.build start length node_mass k i).1 ++
          [Mass.new (start + ((i + 1 : ℕ) : ℝ) * length) node_mass false]) (i + 1 - 1) (i + 1) k
      refine ⟨_, ?_, hp.1, hp.2.1, hp.2.2⟩
      rw [List.getElem?_append_right (by omega), hlen, Nat.sub_self]
      rfl


/-- The statement `masses[i]->pinned = true` for an index in bounds: only the flag of mass
`i` changes. -/
theorem setPinned_spec (ms : List Mass) (i : ℤ) (h0 : 0 ≤ i) (h1 : i.toNat < ms.length) :
    ∃ ms1 : List Mass, setPinned ms i = some ms1 ∧ ms1.length = ms.length ∧
      ∀ (n : ℕ) (m : Mass), ms[n]? = some m →
        ∃ m1 : Mass, ms1[n]? = some m1 ∧ m1.position = m.position ∧ m1.mass = m.mass ∧
          (m1.pinned = true ↔ (m.pinned = true ∨ (n : ℤ) = i)) := by
  unfold setPinned
  rw [if_pos h0, List.getElem?_eq_getElem h1]
  refine ⟨_, rfl, List.length_set _ _ _, ?_⟩
  intro n m hm
  by_cases hn : i.toNat = n
  · subst hn
    rw [List.getElem?_eq_getElem h1, Option.some.injEq] at hm
    refine ⟨_, List.getElem?_set_self h1, by rw [hm], by rw [hm], ?_⟩
    simp only [true_iff]
    right
    exact Int.toNat_of_nonneg h0
  · refine ⟨m, by rw [List.getElem?_set_ne hn]; exact hm, rfl, rfl, ?_⟩
    constructor
    · intro h; exact Or.inl h
    · rintro (h | h)
      · exact h
      · exact absurd (by rw [← h]; rfl) hn

/-- The loop over `pinned_nodes`, all of them in bounds: positions and masses are kept, and
a mass ends pinned iff it was pinned or its index occurs in `pinned_nodes`. -/
theorem pinNodes_spec (pinned : List ℤ) :
    ∀ ms : List Mass, (∀ i ∈ pinned, 0 ≤ i ∧ i.toNat < ms.length) →
      ∃ ms2 : List Mass, pinNodes ms pinned = some ms2 ∧ ms2.length = ms.length ∧
        ∀ (n : ℕ) (m : Mass), ms[n]? = some m →
          ∃ m2 : Mass, ms2[n]? = some m2 ∧ m2.position = m.position ∧ m2.mass = m.mass ∧
            (m2.pinned = true ↔ (m.pinned = true ∨ (n : ℤ) ∈ pinned)) := by
  induction pinned with
  | nil =>
    intro ms _
    refine ⟨ms, rfl, rfl, fun n m hm => ⟨m, hm, rfl, rfl, ?_⟩⟩
    simp
  | cons i rest ih =>
    intro ms h
    obtain ⟨h0, h1⟩ := h i (List.mem_cons_self i rest)
    obtain ⟨ms1, hs, hl1, hspec1⟩ := setPinned_spec ms i h0 h1
    obtain ⟨ms2, hp, hl2, hspec2⟩ := ih ms1 (fun j hj => by
      rw [hl1]; exact h j (List.mem_cons_of_mem i hj))
    refine ⟨ms2, by simp only [pinNodes, hs, hp], hl2.trans hl1, ?_⟩
    intro n m hm
    obtain ⟨m1, hm1, hpos1, hmass1, hpin1⟩ := hspec1 n m hm
    obtain ⟨m2, hm2, hpos2, hmass2, hpin2⟩ := hspec2 n m1 hm1
    refine ⟨m2, hm2, hpos2.trans hpos1, hmass2.trans hmass1, ?_⟩
    rw [hpin2, hpin1, List.mem_cons]
    tauto

/-- The last mass of the rope is at `end`. -/
theorem v2_last_position (start end_ : Vector2D) (c : ℝ) (hc : c ≠ 0) :
    start + c * ((end_ - start) / c) = end_ := by
  apply Vector2D.ext
  · show start.x + c * ((end_.x - start.x) / c) = end_.x
    field_simp
  · show start.y + c * ((end_.y - start.y) / c) = end_.y
    field_simp

/-- C14. For every `num_nodes >= 2` and every list `pinned_nodes` of indices `i` with
`0 <= i < num_nodes`, the constructor returns a rope with exactly `num_nodes` masses and
`num_nodes - 1` springs; mass `i` is at `start + i * ((end - start) / (num_nodes - 1))`, so
mass `0` is at `start` and the last mass is at `end`; spring `i` joins mass `i` and mass
`i + 1` with stiffness `k`; every mass has mass `node_mass`; and a mass is pinned if and
only if its index occurs in `pinned_nodes`. -/
theorem rope_construction (start end_ : Vector2D) (num_nodes : ℤ) (node_mass k : ℝ)
    (pinned_nodes : List ℤ) (hn : 2 ≤ num_nodes)
    (hp : ∀ i ∈ pinned_nodes, 0 ≤ i ∧ i < num_nodes) :
    ∃ r : Rope, Rope.new start end_ num_nodes node_mass k pinned_nodes = some r ∧
      (r.masses.length : ℤ) = num_nodes ∧
      (r.springs.length : ℤ) = num_nodes - 1 ∧
      (∀ i : ℕ, (i : ℤ) < num_nodes → ∃ m : Mass, r.masses[i]? = some m ∧
        m.position = start + (i : ℝ) * ((end_ - start) / ((num_nodes - 1 : ℤ) : ℝ)) ∧
        m.mass = node_mass ∧
        (m.pinned = true ↔ (i : ℤ) ∈ pinned_nodes)) ∧
      (∃ m : Mass, r.masses[0]? = some m ∧ m.position = start) ∧
      (∃ m : Mass, r.masses[(num_nodes - 1).toNat]? = some m ∧ m.position = end_) ∧
      (∀ i : ℕ, (i : ℤ) < num_nodes - 1 → ∃ s : Spring, r.springs[i]? = some s ∧
        s.m1 = i ∧ s.m2 = i + 1 ∧ s.k = k) := by
  have hj : (((num_nodes - 1).toNat : ℕ) : ℤ) = num_nodes - 1 :=
    Int.toNat_of_nonneg (by omega)
  obtain ⟨hlm, hls⟩ := build_length start
    ((end_ - start) / (((num_nodes - 1 : ℤ)) : ℝ)) node_mass k (num_nodes - 1).toNat
  obtain ⟨ms2, hpin, hlen2, hspec⟩ := pinNodes_spec pinned_nodes
    (Rope.build start ((end_ - start) / (((num_nodes - 1 : ℤ)) : ℝ)) node_mass k
      (num_nodes - 1).toNat).1
    (fun i hi => ⟨(hp i hi).1, by rw [hlm]; have := (hp i hi).2; omega⟩)
  have hmass : ∀ i : ℕ, (i : ℤ) < num_nodes → ∃ m : Mass, ms2[i]? = some m ∧
      m.position = start + (i : ℝ) * ((end_ - start) / ((num_nodes - 1 : ℤ) : ℝ)) ∧
      m.mass = node_mass ∧ (m.pinned = true ↔ (i : ℤ) ∈ pinned_nodes) := by
    intro i hi
    obtain ⟨m2, hm2, hpos, hmas, hpn⟩ := hspec i _
      (build_masses start _ node_mass k (num_nodes - 1).toNat i (by omega))
    refine ⟨m2, hm2, hpos, hmas, ?_⟩
    rw [hpn]
    simp [Mass.new]
  refine ⟨⟨ms2, (Rope.build start ((end_ - start) / (((num_nodes - 1 : ℤ)) : ℝ)) node_mass k
    (num_nodes - 1).toNat).2⟩, by simp only [Rope.new, hpin], ?_, ?_, hmass, ?_, ?_, ?_⟩
  · show (ms2.length : ℤ) = num_nodes
    rw [hlen2, hlm]; push_cast; omega
  · show (((Rope.build start ((end_ - start) / (((num_nodes - 1 : ℤ)) : ℝ)) node_mass k
      (num_nodes - 1).toNat).2.length : ℕ) : ℤ) = num_nodes - 1
    rw [hls, hj]
  · obtain ⟨m, hm, hpos, -, -⟩ := hmass 0 (by omega)
    exact ⟨m, hm, by rw [hpos]; exact v2_add_zero_mul _ _⟩
  · obtain ⟨m, hm, hpos, -, -⟩ := hmass (num_nodes - 1).toNat (by omega)
    refine ⟨m, hm, ?_⟩
    rw [hpos]
    have hc : (((num_nodes - 1).toNat : ℕ) : ℝ) = (((num_nodes - 1 : ℤ)) : ℝ) := by
      exact_mod_cast hj
    rw [hc]
    apply v2_last_position
    have : (num_nodes - 1 : ℤ) ≠ 0 := by omega
    exact_mod_cast this
  · intro i hi
    exact build_springs start _ node_mass k (num_nodes - 1).toNat i (by omega)

/-- A rope of three nodes from `(0,0)` to `(4,0)` with node `0` pinned: three masses and
two springs. -/
theorem rope_construction_witness :
    ∃ r : Rope, Rope.new ⟨0, 0⟩ ⟨4, 0⟩ 3 1 100 [0] = some r ∧
      (r.masses.length : ℤ) = 3 ∧ (r.springs.length : ℤ) = 3 - 1 := by
  obtain ⟨r, h1, h2, h3, -⟩ := rope_construction ⟨0, 0⟩ ⟨4, 0⟩ 3 1 100 [0] (by norm_num)
    (fun i hi => by
      rw [List.mem_singleton] at hi
      subst hi
      norm_num)
  exact ⟨r, h1, h2, h3⟩

/-- A rope of two masses, the first pinned at the origin, joined by one spring: after one
Euler step the pinned mass has no force and has not moved. -/
theorem pinned_fixed_forces_cleared_witness :
    ∃ m' : Mass,
      ((Rope.mk [Mass.new ⟨0, 0⟩ 1 true, Mass.new ⟨2, 0⟩ 1 false]
        [Spring.mk 100 1 0 1]).simulateEuler (1 / 100) ⟨0, -1⟩).masses[0]? = some m' ∧
      m'.forces = ⟨0, 0⟩ ∧
      ((Mass.new ⟨0, 0⟩ 1 true).pinned = true →
        m'.position = (Mass.new ⟨0, 0⟩ 1 true).position ∧
        m'.velocity = (Mass.new ⟨0, 0⟩ 1 true).velocity ∧
        m'.last_position = (Mass.new ⟨0, 0⟩ 1 true).last_position) :=
  (pinned_fixed_forces_cleared
    (Rope.mk [Mass.new ⟨0, 0⟩ 1 true, Mass.new ⟨2, 0⟩ 1 false] [Spring.mk 100 1 0 1])
    (1 / 100) ⟨0, -1⟩ 0 (Mass.new ⟨0, 0⟩ 1 true) rfl).1

end Games101
